import Mathlib

/-!
# conventional-commits-ai: the root command as a pipeline over an explicit world

`src/cmd/root.go` is one function, `rootCmd.Run`: read the credential, query git three times,
send one chat-completion request, decode one JSON object, print one line.  The development
embeds that function as a pure function `Cmd.Run` from a `World` (what the environment, the
git subprocesses and the completion endpoint answer) to the trace of effects, in order, and
the way the process ends.

The decoding step is `json.Unmarshal` of Go's standard library applied to a
`CommitMessageResponse`.  The library is not part of the repository; the namespace `GoJson`
transcribes, function by function, the part of `encoding/json` (`scanner.go`, `decode.go`,
`fold.go`, as of Go 1.21 and later) that such a call runs.

Conventions of the embedding:

* a text is a Lean `String`, that is, a Go string that holds valid UTF-8, and a payload is
  read as the list of its code points; where the scanner reports a byte (in an error
  message) it is the first byte of the UTF-8 encoding of the code point;
* a Go `error` is its `Error()` text;
* `os.Exit` and a panic end the run; what the Go runtime itself prints for a panic is not
  an effect of `Run` and is not in the trace;
* the order of the file is: the embedding, the observers and the JSON grammar that the
  statements use, the devices of the proofs, the lemmas, and the theorems about `Run`.
-/

namespace GoJson

/-! ## encoding/json, scanner.go -/

/-- Scanner op codes (`scanContinue` ... `scanError`). -/
inductive Op
  | scanContinue | scanBeginLiteral | scanBeginObject | scanObjectKey | scanObjectValue
  | scanEndObject | scanBeginArray | scanArrayValue | scanEndArray | scanSkipSpace
  | scanEnd | scanError
  deriving DecidableEq, Repr

/-- Entries of the scanner's `parseState` stack. -/
inductive ParseState
  | parseObjectKey | parseObjectValue | parseArrayValue
  deriving DecidableEq, Repr

/-- The scanner's `step` field: which state function reads the next byte. -/
inductive Step
  | beginValueOrEmpty | beginValue | beginStringOrEmpty | beginString | endValue | endTop
  | inString | inStringEsc | inStringEscU | inStringEscU1 | inStringEscU12 | inStringEscU123
  | neg | s0 | s1 | dot | dot0 | e | eSign | e0
  | t | tr | tru | f | fa | fal | fals | n | nu | nul
  | error
  deriving DecidableEq, Repr

/-- The `scanner` struct.  `parseState` has its top at the head (Go appends at the end);
`err` is the message of the `SyntaxError` (its `Offset` is not part of `Error()`, and the
byte counter that feeds it is left out). -/
structure Scanner where
  step : Step
  endTop : Bool
  parseState : List ParseState
  err : Option String
  deriving DecidableEq, Repr

/-- The constant `maxNestingDepth`. -/
def maxNestingDepth : Nat := 10000

/-- The function `isSpace`. -/
def isSpace (c : Char) : Bool :=
  c = ' ' || c = '\t' || c = '\r' || c = '\n'

/-- The first byte of the UTF-8 encoding of `c`: the byte the scanner is looking at when it
stops at `c`. -/
def leadByte (c : Char) : Nat :=
  let n := c.toNat
  if n < 0x80 then n
  else if n < 0x800 then 0xC0 + n / 64
  else if n < 0x10000 then 0xE0 + n / 4096
  else 0xF0 + n / 262144

/-- The digit table `lowerhex` of strconv. -/
def lowerhex (d : Nat) : Char :=
  if d < 10 then Char.ofNat (48 + d) else Char.ofNat (87 + d)

/-- What `strconv.Quote(string(c))` puts between its double quotes, for a byte `b` other
than the two quote characters (`appendEscapedRune`, with `IsPrint` on Latin-1). -/
def quoteBody (b : Nat) : String :=
  if b = 0x5c then "\\\\"
  else if (0x20 ≤ b ∧ b ≤ 0x7e) ∨ (0xa1 ≤ b ∧ b ≤ 0xff ∧ b ≠ 0xad) then String.mk [Char.ofNat b]
  else if b = 7 then "\\a"
  else if b = 8 then "\\b"
  else if b = 12 then "\\f"
  else if b = 10 then "\\n"
  else if b = 13 then "\\r"
  else if b = 9 then "\\t"
  else if b = 11 then "\\v"
  else if b < 0x20 ∨ b = 0x7f then String.mk ['\x5c', 'x', lowerhex (b / 16), lowerhex (b % 16)]
  else String.mk ['\x5c', 'u', '0', '0', lowerhex (b / 16), lowerhex (b % 16)]

/-- The function `quoteChar`: a byte formatted as a quoted character literal. -/
def quoteChar (b : Nat) : String :=
  if b = 0x27 then "\x27\\\x27\x27"
  else if b = 0x22 then "\x27\x22\x27"
  else "\x27" ++ quoteBody b ++ "\x27"

/-- The method `scanner.reset`. -/
def Scanner.reset : Scanner :=
  { step := .beginValue, endTop := false, parseState := [], err := none }

/-- The method `scanner.error`: records a syntax error and returns `scanError`. -/
def Scanner.error (s : Scanner) (c : Char) (context : String) : Op × Scanner :=
  (.scanError, { s with
    step := .error,
    err := some ("invalid character " ++ quoteChar (leadByte c) ++ " " ++ context) })

/-- The method `scanner.pushParseState`. -/
def Scanner.pushParseState (s : Scanner) (c : Char) (newParseState : ParseState)
    (successState : Op) : Op × Scanner :=
  let s1 := { s with parseState := newParseState :: s.parseState }
  if s1.parseState.length ≤ maxNestingDepth then (successState, s1)
  else s1.error c "exceeded max depth"

/-- The method `scanner.popParseState`. -/
def Scanner.popParseState (s : Scanner) : Scanner :=
  let ps := s.parseState.tail
  if ps.length = 0 then { s with parseState := ps, step := .endTop, endTop := true }
  else { s with parseState := ps, step := .endValue }

/-- The function `stateEndTop`: a non-space byte after the top-level value is recorded as
an error, reported on the next call. -/
def stateEndTop (s : Scanner) (c : Char) : Op × Scanner :=
  if !isSpace c then (.scanEnd, (s.error c "after top-level value").2)
  else (.scanEnd, s)

/-- The function `stateEndValue`. -/
def stateEndValue (s : Scanner) (c : Char) : Op × Scanner :=
  match s.parseState with
  | [] => stateEndTop { s with step := .endTop, endTop := true } c
  | ps :: rest =>
    if isSpace c then (.scanSkipSpace, { s with step := .endValue })
    else
      match ps with
      | .parseObjectKey =>
        if c = ':' then
          (.scanObjectKey, { s with parseState := .parseObjectValue :: rest, step := .beginValue })
        else s.error c "after object key"
      | .parseObjectValue =>
        if c = ',' then
          (.scanObjectValue, { s with parseState := .parseObjectKey :: rest, step := .beginString })
        else if c = '\x7d' then (.scanEndObject, s.popParseState)
        else s.error c "after object key:value pair"
      | .parseArrayValue =>
        if c = ',' then (.scanArrayValue, { s with step := .beginValue })
        else if c = ']' then (.scanEndArray, s.popParseState)
        else s.error c "after array element"

/-- The function `stateBeginValue`. -/
def stateBeginValue (s : Scanner) (c : Char) : Op × Scanner :=
  if isSpace c then (.scanSkipSpace, s)
  else if c = '\x7b' then
    ({ s with step := .beginStringOrEmpty }).pushParseState c .parseObjectKey .scanBeginObject
  else if c = '[' then
    ({ s with step := .beginValueOrEmpty }).pushParseState c .parseArrayValue .scanBeginArray
  else if c = '\x22' then (.scanBeginLiteral, { s with step := .inString })
  else if c = '-' then (.scanBeginLiteral, { s with step := .neg })
  else if c = '0' then (.scanBeginLiteral, { s with step := .s0 })
  else if c = 't' then (.scanBeginLiteral, { s with step := .t })
  else if c = 'f' then (.scanBeginLiteral, { s with step := .f })
  else if c = 'n' then (.scanBeginLiteral, { s with step := .n })
  else if '1' ≤ c ∧ c ≤ '9' then (.scanBeginLiteral, { s with step := .s1 })
  else s.error c "looking for beginning of value"

/-- The function `stateBeginValueOrEmpty`. -/
def stateBeginValueOrEmpty (s : Scanner) (c : Char) : Op × Scanner :=
  if isSpace c then (.scanSkipSpace, s)
  else if c = ']' then stateEndValue s c
  else stateBeginValue s c

/-- The function `stateBeginString`. -/
def stateBeginString (s : Scanner) (c : Char) : Op × Scanner :=
  if isSpace c then (.scanSkipSpace, s)
  else if c = '\x22' then (.scanBeginLiteral, { s with step := .inString })
  else s.error c "looking for beginning of object key string"

/-- The function `stateBeginStringOrEmpty`. -/
def stateBeginStringOrEmpty (s : Scanner) (c : Char) : Op × Scanner :=
  if isSpace c then (.scanSkipSpace, s)
  else if c = '\x7d' then
    stateEndValue { s with parseState := .parseObjectValue :: s.parseState.tail } c
  else stateBeginString s c

/-- The function `stateInString`. -/
def stateInString (s : Scanner) (c : Char) : Op × Scanner :=
  if c = '\x22' then (.scanContinue, { s with step := .endValue })
  else if c = '\x5c' then (.scanContinue, { s with step := .inStringEsc })
  else if c.toNat < 0x20 then s.error c "in string literal"
  else (.scanContinue, s)

/-- The function `stateInStringEsc`. -/
def stateInStringEsc (s : Scanner) (c : Char) : Op × Scanner :=
  if c = 'b' ∨ c = 'f' ∨ c = 'n' ∨ c = 'r' ∨ c = 't' ∨ c = '\x5c' ∨ c = '/' ∨ c = '\x22' then
    (.scanContinue, { s with step := .inString })
  else if c = 'u' then (.scanContinue, { s with step := .inStringEscU })
  else s.error c "in string escape code"

/-- The test shared by `stateInStringEscU` ... `stateInStringEscU123`: a hexadecimal digit. -/
def isHex (c : Char) : Bool :=
  ('0' ≤ c && c ≤ '9') || ('a' ≤ c && c ≤ 'f') || ('A' ≤ c && c ≤ 'F')

/-- The functions `stateInStringEscU`, `stateInStringEscU1`, `stateInStringEscU12` and
`stateInStringEscU123`, which differ in the state they move to. -/
def stateInStringEscHex (next : Step) (s : Scanner) (c : Char) : Op × Scanner :=
  if isHex c then (.scanContinue, { s with step := next })
  else s.error c "in \\u hexadecimal character escape"

/-- The function `state0`. -/
def state0 (s : Scanner) (c : Char) : Op × Scanner :=
  if c = '.' then (.scanContinue, { s with step := .dot })
  else if c = 'e' ∨ c = 'E' then (.scanContinue, { s with step := .e })
  else stateEndValue s c

/-- The function `state1`. -/
def state1 (s : Scanner) (c : Char) : Op × Scanner :=
  if '0' ≤ c ∧ c ≤ '9' then (.scanContinue, { s with step := .s1 })
  else state0 s c

/-- The function `stateNeg`. -/
def stateNeg (s : Scanner) (c : Char) : Op × Scanner :=
  if c = '0' then (.scanContinue, { s with step := .s0 })
  else if '1' ≤ c ∧ c ≤ '9' then (.scanContinue, { s with step := .s1 })
  else s.error c "in numeric literal"

/-- The function `stateDot`. -/
def stateDot (s : Scanner) (c : Char) : Op × Scanner :=
  if '0' ≤ c ∧ c ≤ '9' then (.scanContinue, { s with step := .dot0 })
  else s.error c "after decimal point in numeric literal"

/-- The function `stateDot0`. -/
def stateDot0 (s : Scanner) (c : Char) : Op × Scanner :=
  if '0' ≤ c ∧ c ≤ '9' then (.scanContinue, s)
  else if c = 'e' ∨ c = 'E' then (.scanContinue, { s with step := .e })
  else stateEndValue s c

/-- The function `stateESign`. -/
def stateESign (s : Scanner) (c : Char) : Op × Scanner :=
  if '0' ≤ c ∧ c ≤ '9' then (.scanContinue, { s with step := .e0 })
  else s.error c "in exponent of numeric literal"

/-- The function `stateE`. -/
def stateE (s : Scanner) (c : Char) : Op × Scanner :=
  if c = '+' ∨ c = '-' then (.scanContinue, { s with step := .eSign })
  else stateESign s c

/-- The function `stateE0`. -/
def stateE0 (s : Scanner) (c : Char) : Op × Scanner :=
  if '0' ≤ c ∧ c ≤ '9' then (.scanContinue, s)
  else stateEndValue s c

/-- The functions `stateT` ... `stateNul`: the next byte of `true`, `false` or `null` must
be `want`. -/
def stateLit (want : Char) (next : Step) (context : String) (s : Scanner) (c : Char) :
    Op × Scanner :=
  if c = want then (.scanContinue, { s with step := next })
  else s.error c context

/-- The call `s.step(s, c)`: the state function selected by the `step` field. -/
def Scanner.next (s : Scanner) (c : Char) : Op × Scanner :=
  match s.step with
  | .beginValueOrEmpty => stateBeginValueOrEmpty s c
  | .beginValue => stateBeginValue s c
  | .beginStringOrEmpty => stateBeginStringOrEmpty s c
  | .beginString => stateBeginString s c
  | .endValue => stateEndValue s c
  | .endTop => stateEndTop s c
  | .inString => stateInString s c
  | .inStringEsc => stateInStringEsc s c
  | .inStringEscU => stateInStringEscHex .inStringEscU1 s c
  | .inStringEscU1 => stateInStringEscHex .inStringEscU12 s c
  | .inStringEscU12 => stateInStringEscHex .inStringEscU123 s c
  | .inStringEscU123 => stateInStringEscHex .inString s c
  | .neg => stateNeg s c
  | .s0 => state0 s c
  | .s1 => state1 s c
  | .dot => stateDot s c
  | .dot0 => stateDot0 s c
  | .e => stateE s c
  | .eSign => stateESign s c
  | .e0 => stateE0 s c
  | .t => stateLit 'r' .tr "in literal true (expecting \x27r\x27)" s c
  | .tr => stateLit 'u' .tru "in literal true (expecting \x27u\x27)" s c
  | .tru => stateLit 'e' .endValue "in literal true (expecting \x27e\x27)" s c
  | .f => stateLit 'a' .fa "in literal false (expecting \x27a\x27)" s c
  | .fa => stateLit 'l' .fal "in literal false (expecting \x27l\x27)" s c
  | .fal => stateLit 's' .fals "in literal false (expecting \x27s\x27)" s c
  | .fals => stateLit 'e' .endValue "in literal false (expecting \x27e\x27)" s c
  | .n => stateLit 'u' .nu "in literal null (expecting \x27u\x27)" s c
  | .nu => stateLit 'l' .nul "in literal null (expecting \x27l\x27)" s c
  | .nul => stateLit 'l' .endValue "in literal null (expecting \x27l\x27)" s c
  | .error => (.scanError, s)

/-- The method `scanner.eof`. -/
def Scanner.eof (s : Scanner) : Op × Scanner :=
  if s.err.isSome then (.scanError, s)
  else if s.endTop then (.scanEnd, s)
  else
    let s1 := (s.next ' ').2
    if s1.endTop then (.scanEnd, s1)
    else if s1.err.isNone then (.scanError, { s1 with err := some "unexpected end of JSON input" })
    else (.scanError, s1)

/-- The loop of `checkValid`: feed the bytes to the scanner, stop at the first error, and
ask `eof` at the end.  The result is the error, if any. -/
def checkValidLoop (s : Scanner) : List Char → Option String
  | [] => match s.eof with
    | (.scanError, s1) => s1.err
    | _ => none
  | c :: cs => match s.next c with
    | (.scanError, s1) => s1.err
    | (_, s1) => checkValidLoop s1 cs

/-- The function `checkValid`. -/
def checkValid (data : List Char) : Option String :=
  checkValidLoop Scanner.reset data

/-- The constant `phasePanicMsg`. -/
def phasePanicMsg : String := "JSON decoder out of sync - data changing underfoot?"

/-- The value of one hexadecimal digit, as the `switch` in `getu4` computes it. -/
def hexVal (c : Char) : Option Nat :=
  if '0' ≤ c ∧ c ≤ '9' then some (c.toNat - 48)
  else if 'a' ≤ c ∧ c ≤ 'f' then some (c.toNat - 97 + 10)
  else if 'A' ≤ c ∧ c ≤ 'F' then some (c.toNat - 65 + 10)
  else none

/-- The function `getu4`: the code unit of a `\uXXXX` escape at the start of `s`, `none`
for Go's `-1`. -/
def getu4 : List Char → Option Nat
  | '\x5c' :: 'u' :: h1 :: h2 :: h3 :: h4 :: _ =>
    match hexVal h1, hexVal h2, hexVal h3, hexVal h4 with
    | some a, some b, some c, some d => some (((a * 16 + b) * 16 + c) * 16 + d)
    | _, _, _, _ => none
  | _ => none

/-- The function `utf16.IsSurrogate`. -/
def isSurrogate (r : Nat) : Bool := 0xd800 ≤ r && r < 0xe000

/-- The constant `unicode.ReplacementChar`. -/
def replacementChar : Char := Char.ofNat 0xFFFD

/-- The function `utf16.DecodeRune` applied to the results of two `getu4` calls. -/
def decodeRune (r1 : Nat) (r2 : Option Nat) : Char :=
  match r2 with
  | some r2 =>
    if 0xd800 ≤ r1 ∧ r1 < 0xdc00 ∧ 0xdc00 ≤ r2 ∧ r2 < 0xe000 then
      Char.ofNat ((r1 - 0xd800) * 1024 + (r2 - 0xdc00) + 0x10000)
    else replacementChar
  | none => replacementChar

/-- The decoding loop of `unquoteBytes` over the text between the quotes; `none` is
`ok = false`.  (The first loop of `unquoteBytes` only looks for a prefix that needs no
rewriting; on valid UTF-8 the second loop copies such a prefix unchanged.) -/
def unquoteLoop : List Char → Option (List Char)
  | [] => some []
  | '\x5c' :: [] => none
  | '\x5c' :: 'u' :: cs =>
    match getu4 ('\x5c' :: 'u' :: cs), cs with
    | some rr, _ :: _ :: _ :: _ :: cs1 =>
      if isSurrogate rr then
        let dec := decodeRune rr (getu4 cs1)
        if dec ≠ replacementChar then
          match cs1 with
          | _ :: _ :: _ :: _ :: _ :: _ :: cs2 => (unquoteLoop cs2).map (dec :: ·)
          | _ => none
        else (unquoteLoop cs1).map (replacementChar :: ·)
      else (unquoteLoop cs1).map (Char.ofNat rr :: ·)
    | _, _ => none
  | '\x5c' :: e :: cs =>
    if e = '\x22' ∨ e = '\x5c' ∨ e = '/' ∨ e = '\x27' then (unquoteLoop cs).map (e :: ·)
    else if e = 'b' then (unquoteLoop cs).map ('\x08' :: ·)
    else if e = 'f' then (unquoteLoop cs).map ('\x0c' :: ·)
    else if e = 'n' then (unquoteLoop cs).map ('\n' :: ·)
    else if e = 'r' then (unquoteLoop cs).map ('\r' :: ·)
    else if e = 't' then (unquoteLoop cs).map ('\t' :: ·)
    else none
  | c :: cs =>
    if c = '\x22' ∨ c.toNat < 0x20 then none
    else (unquoteLoop cs).map (c :: ·)

/-- The function `unquoteBytes`: the text of a quoted JSON string literal. -/
def unquoteBytes (s : List Char) : Option (List Char) :=
  match s with
  | '\x22' :: t =>
    if t.getLast? = some '\x22' then unquoteLoop t.dropLast else none
  | _ => none

/-- The function `foldRune` on one rune.  ASCII letters go to upper case; U+017F and U+212A
are the two runes outside ASCII whose fold orbit has an ASCII member, which is then the
smallest.  Any other rune outside ASCII folds to a rune outside ASCII, which is all that a
comparison with an ASCII field name sees, and is left as it is here. -/
def foldRune (c : Char) : Char :=
  if 'a' ≤ c ∧ c ≤ 'z' then Char.ofNat (c.toNat - 32)
  else if c = Char.ofNat 0x17f then 'S'
  else if c = Char.ofNat 0x212a then 'K'
  else c

/-- The function `foldName`. -/
def foldName (s : List Char) : List Char := s.map foldRune

/-- The JSON name of the only field of `CommitMessageResponse` (its struct tag). -/
def fieldName : List Char := "commit_message".toList

/-- What a JSON value is decoded into: the struct itself, its string field, or the invalid
`reflect.Value` that stands for "skip this value". -/
inductive Target
  | top | field | invalid
  deriving DecidableEq, Repr

/-- The field lookup in `object`: `byExactName`, then `byFoldedName`. -/
def lookupField (key : List Char) : Target :=
  if key = fieldName then .field
  else if foldName key = foldName fieldName then .field
  else .invalid

/-- Why a decoding did not return: a Go panic, or the fuel of `objectLoop` ran out. -/
inductive Abort
  | panic (msg : String)
  | outOfFuel
  deriving DecidableEq, Repr

/-- The `decodeState` struct.  `last` is `data[off-1]`, `rest` is `data[off:]`, and
`commitMessage` is the `CommitMessage` field of the struct that `Unmarshal` fills. -/
structure DecodeState where
  last : Char
  rest : List Char
  opcode : Op
  scan : Scanner
  savedError : Option String
  commitMessage : String
  deriving DecidableEq, Repr

/-- The result of `v.Type().String()` for a target. -/
def typeString : Target → String
  | .field => "string"
  | _ => "cmd.CommitMessageResponse"

/-- The message of the `UnmarshalTypeError` that `saveError` records for a JSON value of
kind `value` met at target `tgt` (`addErrorContext` and `Error()`). -/
def unmarshalTypeError (value : String) (tgt : Target) : String :=
  match tgt with
  | .field =>
    "json: cannot unmarshal " ++ value ++
      " into Go struct field CommitMessageResponse.commit_message of type " ++ typeString tgt
  | _ => "json: cannot unmarshal " ++ value ++ " into Go value of type " ++ typeString tgt

/-- The method `decodeState.saveError`: only the first error is kept. -/
def DecodeState.saveError (d : DecodeState) (msg : String) : DecodeState :=
  if d.savedError.isNone then { d with savedError := some msg } else d

/-- The loop of `decodeState.scanWhile`. -/
def scanWhileLoop (op : Op) (s : Scanner) (last : Char) : List Char → Char × List Char × Op × Scanner
  | [] => (last, [], s.eof.1, s.eof.2)
  | c :: cs =>
    if (s.next c).1 ≠ op then (c, cs, (s.next c).1, (s.next c).2)
    else scanWhileLoop op (s.next c).2 c cs

/-- The method `decodeState.scanWhile`. -/
def DecodeState.scanWhile (d : DecodeState) (op : Op) : DecodeState :=
  let r := scanWhileLoop op d.scan d.last d.rest
  { d with last := r.1, rest := r.2.1, opcode := r.2.2.1, scan := r.2.2.2 }

/-- The method `decodeState.scanNext`. -/
def DecodeState.scanNext (d : DecodeState) : DecodeState :=
  match d.rest with
  | c :: cs => { d with last := c, rest := cs, opcode := (d.scan.next c).1, scan := (d.scan.next c).2 }
  | [] => { d with opcode := d.scan.eof.1, scan := d.scan.eof.2 }

/-- The string loop of `rescanLiteral`: the bytes up to and including the closing quote,
and what follows. -/
def rescanString : List Char → List Char × List Char
  | [] => ([], [])
  | '\x22' :: cs => (['\x22'], cs)
  | '\x5c' :: [] => (['\x5c'], [])
  | '\x5c' :: e :: cs => ('\x5c' :: e :: (rescanString cs).1, (rescanString cs).2)
  | c :: cs => (c :: (rescanString cs).1, (rescanString cs).2)

/-- The bytes that the number loop of `rescanLiteral` runs over. -/
def isNumberByte (c : Char) : Bool :=
  ('0' ≤ c && c ≤ '9') || c = '.' || c = 'e' || c = 'E' || c = '+' || c = '-'

/-- The number loop of `rescanLiteral`. -/
def rescanNumber : List Char → List Char × List Char
  | [] => ([], [])
  | c :: cs => if isNumberByte c then (c :: (rescanNumber cs).1, (rescanNumber cs).2) else ([], c :: cs)

/-- The method `decodeState.rescanLiteral`, together with the slice
`data[start:readIndex()]` that every caller takes next: the literal that began at `last`. -/
def DecodeState.rescanLiteral (d : DecodeState) : List Char × DecodeState :=
  let r : List Char × List Char :=
    if d.last = '\x22' then rescanString d.rest
    else if ('0' ≤ d.last ∧ d.last ≤ '9') ∨ d.last = '-' then rescanNumber d.rest
    else if d.last = 't' then d.rest.splitAt 3
    else if d.last = 'f' then d.rest.splitAt 4
    else if d.last = 'n' then d.rest.splitAt 3
    else ([], d.rest)
  match r.2 with
  | c :: cs =>
    (d.last :: r.1,
      { d with last := c, rest := cs, opcode := (stateEndValue d.scan c).1,
               scan := (stateEndValue d.scan c).2 })
  | [] => (d.last :: r.1, { d with rest := [], opcode := .scanEnd })

/-- The loop of `decodeState.skip`; `none` when the data ends first (an index out of range
in Go). -/
def skipLoop (depth : Nat) (s : Scanner) : List Char → Option (Char × List Char × Op × Scanner)
  | [] => none
  | c :: cs =>
    if (s.next c).2.parseState.length < depth then some (c, cs, (s.next c).1, (s.next c).2)
    else skipLoop depth (s.next c).2 cs

/-- The method `decodeState.skip`: reads to the end of the array or object just opened. -/
def DecodeState.skip (d : DecodeState) : Except Abort DecodeState :=
  match skipLoop d.scan.parseState.length d.scan d.rest with
  | some r => .ok { d with last := r.1, rest := r.2.1, opcode := r.2.2.1, scan := r.2.2.2 }
  | none => .error (.panic "runtime error: index out of range")

/-- The method `decodeState.literalStore` for the two valid targets. -/
def DecodeState.literalStore (d : DecodeState) (item : List Char) (tgt : Target) :
    Except Abort DecodeState :=
  match item.head? with
  | some 'n' => .ok d
  | some 't' => .ok (d.saveError (unmarshalTypeError "bool" tgt))
  | some 'f' => .ok (d.saveError (unmarshalTypeError "bool" tgt))
  | some '\x22' =>
    match unquoteBytes item with
    | none => .error (.panic phasePanicMsg)
    | some s =>
      match tgt with
      | .field => .ok { d with commitMessage := String.mk s }
      | _ => .ok (d.saveError (unmarshalTypeError "string" tgt))
  | some c =>
    if c ≠ '-' ∧ (c < '0' ∨ c > '9') then .error (.panic phasePanicMsg)
    else .ok (d.saveError (unmarshalTypeError "number" tgt))
  | none => .ok (d.saveError
      ("json: invalid use of ,string struct tag, trying to unmarshal \x22\x22 into " ++
        typeString tgt))

/-- The method `decodeState.value` where the target is the string field or invalid: an
array or an object is a type error (for a valid target) and is skipped, a literal is
stored (for a valid target). -/
def DecodeState.valueLeaf (d : DecodeState) (tgt : Target) : Except Abort DecodeState :=
  match d.opcode with
  | .scanBeginArray =>
    (if tgt = .invalid then d else d.saveError (unmarshalTypeError "array" tgt)).skip.map
      DecodeState.scanNext
  | .scanBeginObject =>
    (if tgt = .invalid then d else d.saveError (unmarshalTypeError "object" tgt)).skip.map
      DecodeState.scanNext
  | .scanBeginLiteral =>
    if tgt = .invalid then .ok d.rescanLiteral.2
    else d.rescanLiteral.2.literalStore d.rescanLiteral.1 tgt
  | _ => .error (.panic phasePanicMsg)

/-- The `for` loop of `decodeState.object` when the target is the struct: one iteration
reads one member.  `fuel` bounds the number of iterations. -/
def DecodeState.objectLoop : Nat → DecodeState → Except Abort DecodeState
  | 0, _ => .error .outOfFuel
  | fuel + 1, d =>
    let d1 := d.scanWhile .scanSkipSpace
    if d1.opcode = .scanEndObject then .ok d1
    else if d1.opcode ≠ .scanBeginLiteral then .error (.panic phasePanicMsg)
    else
      match unquoteBytes d1.rescanLiteral.1 with
      | none => .error (.panic phasePanicMsg)
      | some key =>
        let d2 := d1.rescanLiteral.2
        let d3 := if d2.opcode = .scanSkipSpace then d2.scanWhile .scanSkipSpace else d2
        if d3.opcode ≠ .scanObjectKey then .error (.panic phasePanicMsg)
        else
          match (d3.scanWhile .scanSkipSpace).valueLeaf (lookupField key) with
          | .error a => .error a
          | .ok d4 =>
            let d5 := if d4.opcode = .scanSkipSpace then d4.scanWhile .scanSkipSpace else d4
            if d5.opcode = .scanEndObject then .ok d5
            else if d5.opcode ≠ .scanObjectValue then .error (.panic phasePanicMsg)
            else DecodeState.objectLoop fuel d5

/-- The method `decodeState.value` at the top level, where the target is the struct. -/
def DecodeState.value (d : DecodeState) : Except Abort DecodeState :=
  match d.opcode with
  | .scanBeginArray => (d.saveError (unmarshalTypeError "array" .top)).skip.map DecodeState.scanNext
  | .scanBeginObject => (d.objectLoop (d.rest.length + 1)).map DecodeState.scanNext
  | .scanBeginLiteral => d.rescanLiteral.2.literalStore d.rescanLiteral.1 .top
  | _ => .error (.panic phasePanicMsg)

/-- The method `decodeState.init` followed by the first two statements of
`decodeState.unmarshal` (`d.scan.reset()`, `d.scanWhile(scanSkipSpace)`), for a struct whose
field holds `v0`. -/
def DecodeState.start (data : List Char) (v0 : String) : DecodeState :=
  DecodeState.scanWhile
    { last := ' ', rest := data, opcode := .scanContinue, scan := Scanner.reset,
      savedError := none, commitMessage := v0 } .scanSkipSpace

end GoJson

namespace Cmd

/-! ## src/cmd/root.go -/

/-- The struct `CommitMessageResponse` (its field carries the tag `json:"commit_message"`). -/
structure CommitMessageResponse where
  CommitMessage : String
  deriving DecidableEq, Repr

/-- The call `json.Unmarshal([]byte(content), &v)` for `v : CommitMessageResponse`:
`checkValid` first, then `decodeState.unmarshal`.  The result is the struct as the call
leaves it and the returned error (`none` for `nil`). -/
def Unmarshal (content : String) (v : CommitMessageResponse) :
    Except GoJson.Abort (CommitMessageResponse × Option String) :=
  match GoJson.checkValid content.toList with
  | some err => .ok (v, some err)
  | none =>
    match (GoJson.DecodeState.start content.toList v.CommitMessage).value with
    | .error a => .error a
    | .ok d => .ok ({ CommitMessage := d.commitMessage }, d.savedError)

/-- The constant `MODEL` (`openai.ChatModelGPT4_1`). -/
def MODEL : String := "gpt-4.1"

/-- The role of a chat message: `openai.SystemMessage` or `openai.UserMessage`. -/
inductive Role
  | system | user
  deriving DecidableEq, Repr

/-- One entry of `ChatCompletionNewParams.Messages`. -/
structure Message where
  role : Role
  content : String
  deriving DecidableEq, Repr

/-- The function `openai.SystemMessage`. -/
def SystemMessage (content : String) : Message := { role := .system, content := content }

/-- The function `openai.UserMessage`. -/
def UserMessage (content : String) : Message := { role := .user, content := content }

/-- The struct `openai.ResponseFormatJSONSchemaJSONSchemaParam`.  `Schema` is the value of
the package variable `CommitMessageResponseSchema`, which jsonschema reflection computes
when the package is initialised; it comes from the `World`. -/
structure ResponseFormatJSONSchemaJSONSchemaParam where
  Name : String
  Description : String
  Schema : String
  Strict : Bool
  deriving DecidableEq, Repr

/-- The struct `openai.ChatCompletionNewParams`, with the fields that `Run` sets. -/
structure ChatCompletionNewParams where
  Model : String
  Messages : List Message
  ResponseFormat : ResponseFormatJSONSchemaJSONSchemaParam
  deriving DecidableEq, Repr

/-- One entry of `ChatCompletion.Choices`, reduced to `Message.Content`. -/
structure ChatCompletionChoice where
  Content : String
  deriving DecidableEq, Repr

/-- The struct `openai.ChatCompletion`, reduced to its `Choices`. -/
structure ChatCompletion where
  Choices : List ChatCompletionChoice
  deriving DecidableEq, Repr

/-- What the process meets outside itself.  A Go `error` is its `Error()` text. -/
structure World where
  /-- The function `os.Getenv`: the empty string for a variable that is not set. -/
  getenv : String → String
  /-- The call `exec.Command(argv...).Output()`: standard output, or the error. -/
  output : List String → Except String String
  /-- The call `client.Chat.Completions.New` of a client made with the given API key. -/
  chatCompletionsNew : String → ChatCompletionNewParams → Except String ChatCompletion
  /-- The package variable `CommitMessageResponseSchema`. -/
  CommitMessageResponseSchema : String

/-- One observable action of the process. -/
inductive Effect
  | getenv (key : String)
  | subprocess (argv : List String)
  | network (apiKey : String) (params : ChatCompletionNewParams)
  | stderr (text : String)
  | stdout (text : String)
  deriving DecidableEq, Repr

/-- How `Run` ends: `os.Exit(code)`, a return to cobra, or a Go panic. -/
inductive Outcome
  | exit (code : Nat)
  | returned
  | panic (msg : String)
  deriving DecidableEq, Repr

/-- The exit status of the process: a program whose `main` returns ends with status 0, the
Go runtime ends a panicking program with status 2. -/
def Outcome.exitCode : Outcome → Nat
  | .exit code => code
  | .returned => 0
  | .panic _ => 2

/-- The function `fmt.Fprintln` on strings and errors: operands separated by spaces, a
newline at the end. -/
def Fprintln (operands : List String) : String :=
  " ".intercalate operands ++ "\n"

/-- The function `run_git_diff`. -/
def run_git_diff (w : World) : List Effect × Except String String :=
  ([.subprocess ["git", "diff", "HEAD"]], w.output ["git", "diff", "HEAD"])

/-- The function `run_git_log`. -/
def run_git_log (w : World) : List Effect × Except String String :=
  ([.subprocess ["git", "log", "--pretty=format:%s", "-n", "30"]],
    w.output ["git", "log", "--pretty=format:%s", "-n", "30"])

/-- The function `run_git_branch`. -/
def run_git_branch (w : World) : List Effect × Except String String :=
  ([.subprocess ["git", "branch", "--show-current"]],
    w.output ["git", "branch", "--show-current"])

/-- The local `systemPrompt` of `Run`: the raw string literal, byte for byte (the
continuation lines begin with the tab of the source's indentation). -/
def systemPrompt : String := String.join [
    "You are a commit message generator.\n",
    "\tYou will be given a git diff of the current changes, a log of the last commits, and the current branch name.\n",
    "\tYour job is to generate a commit message that is as short as possible but as descriptive as possible.\n",
    "\tThe generated commit message will be similar to the convention of the last commit messages (in terms of type, scope, subject)\n",
    "\tand MUST be in the following format (conventional commits):\n",
    "\t<type>(<scope>): <subject>\n",
    "\n",
    "\t<type> can be one of the following:\n",
    "\t- feat: A new feature\n",
    "\t- fix: A bug fix\n",
    "\t- docs: Documentation only changes\n",
    "\t- style: Changes that do not affect the meaning of the code (white-space, formatting, missing semi-colons, etc)\n",
    "\t- refactor: A code change that neither fixes a bug nor adds a feature\n",
    "\t- perf: A code change that improves performance\n",
    "\t- test: Adding missing tests or correcting existing tests\n",
    "\t- build: Changes that affect the build system or external dependencies (example scopes: gulp, broccoli, npm)\n",
    "\t- ci: Changes to our CI configuration files and scripts (example scopes: Travis, Circle, BrowserStack, SauceLabs)\n",
    "\t- chore: Other changes that don't modify src or test files\n",
    "\t- revert: Reverts a previous commit\n",
    "\n",
    "\t<scope> is optional and can be anything specifying the place of the commit change.\n",
    "\tIf the git log contains previous examples of conventional commits, the scope should follow the pattern of the previous commits.\n",
    "\tIf the previous similar commits:\n",
    "\t- do not contain a scope, then the scope should be the type of the commit.\n",
    "\t- contain a ticket number or pull request number, then the scope should be the ticket number or pull request number.\n",
    "\n",
    "\t<subject> is a short description of the change.\n",
    "\t"]

/-- The local `schemaParam` of `Run`. -/
def schemaParam (w : World) : ResponseFormatJSONSchemaJSONSchemaParam :=
  { Name := "commit_message", Description := "Commit message",
    Schema := w.CommitMessageResponseSchema, Strict := true }

/-- The `Messages` field of the request: the composed prompt. -/
def messages (gitBranch gitDiff gitLog : String) : List Message :=
  [ SystemMessage systemPrompt,
    UserMessage ("Current branch: " ++ gitBranch),
    UserMessage ("Git diff:\n" ++ gitDiff),
    UserMessage ("Git log:\n" ++ gitLog) ]

/-- The argument of `client.Chat.Completions.New` in `Run`. -/
def completionParams (w : World) (gitBranch gitDiff gitLog : String) : ChatCompletionNewParams :=
  { Model := MODEL, Messages := messages gitBranch gitDiff gitLog, ResponseFormat := schemaParam w }

/-- The tail of `Run` from `var commitMessageResponse CommitMessageResponse` on, given the
completion that the endpoint returned without error.  `chat.Choices[0]` panics on an empty
slice.  (The case `outOfFuel` is there for the match to be complete: `Unmarshal_fuel` shows
that `Unmarshal` never returns it.) -/
def decodeAndPrint (chat : ChatCompletion) : List Effect × Outcome :=
  match chat.Choices with
  | [] => ([], .panic "runtime error: index out of range [0] with length 0")
  | choice :: _ =>
    match Unmarshal choice.Content { CommitMessage := "" } with
    | .error (.panic msg) => ([], .panic msg)
    | .error .outOfFuel => ([], .panic GoJson.phasePanicMsg)
    | .ok (_, some err) =>
      ([.stderr (Fprintln ["Failed to unmarshal commit message response:", err])], .exit 1)
    | .ok (commitMessageResponse, none) =>
      ([.stdout (Fprintln [commitMessageResponse.CommitMessage])], .returned)

/-- The function literal `rootCmd.Run`: the trace of effects, in order, and the outcome. -/
def Run (w : World) : List Effect × Outcome :=
  let apiKey := w.getenv "OPENAI_API_KEY"
  let t0 : List Effect := [.getenv "OPENAI_API_KEY"]
  if apiKey = "" then
    (t0 ++ [.stderr (Fprintln ["OPENAI_API_KEY is not set"])], .exit 1)
  else
    let t1 := t0 ++ (run_git_diff w).1
    match (run_git_diff w).2 with
    | .error err => (t1 ++ [.stderr (Fprintln ["Failed to run git diff:", err])], .exit 1)
    | .ok gitDiff =>
      let t2 := t1 ++ (run_git_log w).1
      match (run_git_log w).2 with
      | .error err => (t2 ++ [.stderr (Fprintln ["Failed to run git log:", err])], .exit 1)
      | .ok gitLog =>
        let t3 := t2 ++ (run_git_branch w).1
        match (run_git_branch w).2 with
        | .error err => (t3 ++ [.stderr (Fprintln ["Failed to run git branch:", err])], .exit 1)
        | .ok gitBranch =>
          let params := completionParams w gitBranch gitDiff gitLog
          let t4 := t3 ++ [.network apiKey params]
          match w.chatCompletionsNew apiKey params with
          | .error err =>
            (t4 ++ [.stderr (Fprintln ["Failed to create chat completion:", err])], .exit 1)
          | .ok chat => (t4 ++ (decodeAndPrint chat).1, (decodeAndPrint chat).2)

/-! ## Observers of a trace -/

/-- Whether an effect is a subprocess call. -/
def Effect.isSubprocess : Effect → Bool
  | .subprocess _ => true
  | _ => false

/-- Whether an effect is a call to the completion endpoint. -/
def Effect.isNetwork : Effect → Bool
  | .network _ _ => true
  | _ => false

/-- Whether an effect writes to standard output. -/
def Effect.isStdout : Effect → Bool
  | .stdout _ => true
  | _ => false

/-- Whether an effect writes to standard error. -/
def Effect.isStderr : Effect → Bool
  | .stderr _ => true
  | _ => false

/-- The requests sent to the completion endpoint, in order. -/
def requests (trace : List Effect) : List ChatCompletionNewParams :=
  trace.filterMap fun e => match e with
    | .network _ params => some params
    | _ => none

/-- The texts written to standard output, in order. -/
def stdoutWrites (trace : List Effect) : List String :=
  trace.filterMap fun e => match e with
    | .stdout text => some text
    | _ => none

/-- The texts written to standard error, in order. -/
def stderrWrites (trace : List Effect) : List String :=
  trace.filterMap fun e => match e with
    | .stderr text => some text
    | _ => none

/-- A world for examples: the credential is `key`, the three git queries answer `diff`,
`log` and `branch`, and the endpoint answers `completion`. -/
def exampleWorld (key : String) (diff log branch : Except String String)
    (completion : Except String ChatCompletion) : World :=
  { getenv := fun name => if name = "OPENAI_API_KEY" then key else "",
    output := fun argv =>
      if argv = ["git", "diff", "HEAD"] then diff
      else if argv = ["git", "branch", "--show-current"] then branch
      else log,
    chatCompletionsNew := fun _ _ => completion,
    CommitMessageResponseSchema := "" }

/-- The effects of a run up to and including the completion request, when the credential
is `key` and the three queries answer `diff`, `log` and `branch`. -/
def requestTrace (w : World) (key diff log branch : String) : List Effect :=
  [ .getenv "OPENAI_API_KEY",
    .subprocess ["git", "diff", "HEAD"],
    .subprocess ["git", "log", "--pretty=format:%s", "-n", "30"],
    .subprocess ["git", "branch", "--show-current"],
    .network key (completionParams w branch diff log) ]

/-- The first 19 characters of a diagnostic: enough to tell the six stages apart. -/
def stageTag (text : String) : List Char := text.data.take 19

end Cmd

namespace JsonText

/-! ## JSON texts of the completion payload (RFC 8259) -/

/-- Insignificant whitespace: any run of space, tab, line feed and carriage return. -/
def IsWs (t : List Char) : Prop :=
  ∀ c ∈ t, c = ' ' ∨ c = '\t' ∨ c = '\n' ∨ c = '\r'

/-- A hexadecimal digit and its value. -/
def IsHexDigit (c : Char) (v : Nat) : Prop :=
  (48 ≤ c.toNat ∧ c.toNat ≤ 57 ∧ v + 48 = c.toNat) ∨
  (97 ≤ c.toNat ∧ c.toNat ≤ 102 ∧ v + 87 = c.toNat) ∨
  (65 ≤ c.toNat ∧ c.toNat ≤ 70 ∧ v + 55 = c.toNat)

/-- The six characters of a `\uXXXX` escape for the code unit `n`. -/
inductive IsUnicodeEscape : Nat → List Char → Prop
  | mk (h1 h2 h3 h4 : Char) (a b c d : Nat) :
    IsHexDigit h1 a → IsHexDigit h2 b → IsHexDigit h3 c → IsHexDigit h4 d →
    IsUnicodeEscape (a * 4096 + b * 256 + c * 16 + d) ['\x5c', 'u', h1, h2, h3, h4]

/-- One character of a string value and a text that denotes it inside a JSON string:
the character itself (unless it is a quotation mark, a reverse solidus or a control
character), a two-character escape, a `\uXXXX` escape, or a `\uXXXX\uXXXX` surrogate pair
for a character beyond the basic plane. -/
inductive EncodesChar : Char → List Char → Prop
  | unescaped (c : Char) : 0x20 ≤ c.toNat → c ≠ '\x22' → c ≠ '\x5c' → EncodesChar c [c]
  | quotationMark : EncodesChar '\x22' ['\x5c', '\x22']
  | reverseSolidus : EncodesChar '\x5c' ['\x5c', '\x5c']
  | solidus : EncodesChar '/' ['\x5c', '/']
  | backspace : EncodesChar '\x08' ['\x5c', 'b']
  | formFeed : EncodesChar '\x0c' ['\x5c', 'f']
  | lineFeed : EncodesChar '\n' ['\x5c', 'n']
  | carriageReturn : EncodesChar '\r' ['\x5c', 'r']
  | tab : EncodesChar '\t' ['\x5c', 't']
  | unicode (c : Char) (t : List Char) : IsUnicodeEscape c.toNat t → EncodesChar c t
  | surrogatePair (c : Char) (hi lo : List Char) : 0x10000 ≤ c.toNat →
    IsUnicodeEscape (0xD800 + (c.toNat - 0x10000) / 0x400) hi →
    IsUnicodeEscape (0xDC00 + (c.toNat - 0x10000) % 0x400) lo →
    EncodesChar c (hi ++ lo)

/-- The text between the quotation marks of a JSON string that denotes the value `s`. -/
inductive EncodesString : List Char → List Char → Prop
  | nil : EncodesString [] []
  | cons (c : Char) (s t ts : List Char) :
    EncodesChar c t → EncodesString s ts → EncodesString (c :: s) (t ++ ts)

/-- The payload is a JSON object whose only member is `"commit_message"` with the string
value `s`, with any whitespace around the six tokens. -/
def IsCommitMessageObject (payload : String) (s : String) : Prop :=
  ∃ w0 w1 w2 w3 w4 w5 body : List Char,
    IsWs w0 ∧ IsWs w1 ∧ IsWs w2 ∧ IsWs w3 ∧ IsWs w4 ∧ IsWs w5 ∧
    EncodesString s.data body ∧
    payload.data =
      w0 ++ '\x7b' :: (w1 ++ ("\x22commit_message\x22".data ++ (w2 ++ ':' :: (w3 ++
        '\x22' :: (body ++ '\x22' :: (w4 ++ '\x7d' :: w5))))))

end JsonText

namespace GoJson

open JsonText

/-! ## Devices of the proofs -/

/-- The scanner `s` reads `t` without reporting an error and is then in state `s1`. -/
def Feeds : Scanner → List Char → Scanner → Prop
  | s, [], s1 => s = s1
  | s, c :: cs, s1 => (s.next c).1 ≠ .scanError ∧ Feeds (s.next c).2 cs s1

/-- The scanner inside a string literal. -/
def inStr (endTop : Bool) (ps : List ParseState) (err : Option String) : Scanner :=
  { step := .inString, endTop := endTop, parseState := ps, err := err }

/-- The state of the decoder just after a literal that is followed by `t`: the next byte,
if there is one, has been given to `stateEndValue` (the end of `rescanLiteral`). -/
def endValueAt (d : DecodeState) (t : List Char) : DecodeState :=
  match t with
  | c :: cs =>
    { d with last := c, rest := cs, opcode := (stateEndValue d.scan c).1,
             scan := (stateEndValue d.scan c).2 }
  | [] => { d with rest := [], opcode := .scanEnd }

end GoJson

namespace JsonText

/-! ## JSON values in general (RFC 8259) -/

/-- A decimal digit. -/
def IsDigit (c : Char) : Prop := 48 ≤ c.toNat ∧ c.toNat ≤ 57

/-- The integer part of a number: `0`, or a digit from 1 to 9 followed by digits. -/
inductive IsInt : List Char → Prop
  | zero : IsInt ['0']
  | nonzero (c : Char) (ds : List Char) :
    49 ≤ c.toNat → c.toNat ≤ 57 → (∀ d ∈ ds, IsDigit d) → IsInt (c :: ds)

/-- The optional fraction part of a number: a point and at least one digit. -/
inductive IsFrac : List Char → Prop
  | none : IsFrac []
  | some (d : Char) (ds : List Char) :
    IsDigit d → (∀ x ∈ ds, IsDigit x) → IsFrac ('.' :: d :: ds)

/-- The optional exponent part of a number: `e` or `E`, an optional sign, and at least one
digit. -/
inductive IsExp : List Char → Prop
  | none : IsExp []
  | some (e : Char) (sign : List Char) (d : Char) (ds : List Char) :
    (e = 'e' ∨ e = 'E') → (sign = [] ∨ sign = ['+'] ∨ sign = ['-']) →
    IsDigit d → (∀ x ∈ ds, IsDigit x) → IsExp (e :: (sign ++ d :: ds))

/-- A JSON number: an optional minus sign, an integer part, a fraction, an exponent. -/
inductive IsNumber : List Char → Prop
  | mk (minus int frac exp : List Char) :
    (minus = [] ∨ minus = ['-']) → IsInt int → IsFrac frac → IsExp exp →
    IsNumber (minus ++ (int ++ (frac ++ exp)))

/-- The three syntactic categories: a value, the non-empty content of an array, the
non-empty content of an object. -/
inductive Kind
  | value | elements | members

/-- The text `t` is a JSON text of the given kind whose brackets nest `n` deep. -/
inductive IsJson : Kind → Nat → List Char → Prop
  | null : IsJson .value 0 ['n', 'u', 'l', 'l']
  | true : IsJson .value 0 ['t', 'r', 'u', 'e']
  | false : IsJson .value 0 ['f', 'a', 'l', 's', 'e']
  | number (t : List Char) : IsNumber t → IsJson .value 0 t
  | string (s body : List Char) : EncodesString s body →
    IsJson .value 0 ('\x22' :: (body ++ ['\x22']))
  | emptyArray (w : List Char) : IsWs w → IsJson .value 1 ('[' :: (w ++ [']']))
  | array (n : Nat) (u : List Char) : IsJson .elements n u →
    IsJson .value (n + 1) ('[' :: (u ++ [']']))
  | emptyObject (w : List Char) : IsWs w → IsJson .value 1 ('\x7b' :: (w ++ ['\x7d']))
  | object (n : Nat) (u : List Char) : IsJson .members n u →
    IsJson .value (n + 1) ('\x7b' :: (u ++ ['\x7d']))
  | element (w1 : List Char) (n : Nat) (t w2 : List Char) :
    IsWs w1 → IsJson .value n t → IsWs w2 → IsJson .elements n (w1 ++ (t ++ w2))
  | elements (w1 : List Char) (n : Nat) (t w2 : List Char) (m : Nat) (u : List Char) :
    IsWs w1 → IsJson .value n t → IsWs w2 → IsJson .elements m u →
    IsJson .elements (max n m) (w1 ++ (t ++ (w2 ++ ',' :: u)))
  | member (w1 name key w2 w3 : List Char) (n : Nat) (t w4 : List Char) :
    IsWs w1 → EncodesString name key → IsWs w2 → IsWs w3 → IsJson .value n t → IsWs w4 →
    IsJson .members n (w1 ++ '\x22' :: (key ++ '\x22' :: (w2 ++ ':' :: (w3 ++ (t ++ w4)))))
  | members (w1 name key w2 w3 : List Char) (n : Nat) (t w4 : List Char) (m : Nat)
    (u : List Char) :
    IsWs w1 → EncodesString name key → IsWs w2 → IsWs w3 → IsJson .value n t → IsWs w4 →
    IsJson .members m u →
    IsJson .members (max n m)
      (w1 ++ '\x22' :: (key ++ '\x22' :: (w2 ++ ':' :: (w3 ++ (t ++ (w4 ++ ',' :: u))))))

/-- The non-empty content of an object none of whose member names satisfies `P`; the
member values are arbitrary JSON values. -/
inductive IsMembersWithout (P : List Char → Prop) : Nat → List Char → Prop
  | member (w1 name key w2 w3 : List Char) (n : Nat) (t w4 : List Char) :
    IsWs w1 → EncodesString name key → ¬ P name → IsWs w2 → IsWs w3 → IsJson .value n t →
    IsWs w4 →
    IsMembersWithout P n
      (w1 ++ '\x22' :: (key ++ '\x22' :: (w2 ++ ':' :: (w3 ++ (t ++ w4)))))
  | members (w1 name key w2 w3 : List Char) (n : Nat) (t w4 : List Char) (m : Nat)
    (u : List Char) :
    IsWs w1 → EncodesString name key → ¬ P name → IsWs w2 → IsWs w3 → IsJson .value n t →
    IsWs w4 → IsMembersWithout P m u →
    IsMembersWithout P (max n m)
      (w1 ++ '\x22' :: (key ++ '\x22' :: (w2 ++ ':' :: (w3 ++ (t ++ (w4 ++ ',' :: u))))))

/-- The two names agree up to letter case, as Go's field matching understands it: each
character of `name` is the corresponding character of `field`, its upper-case form, or (for
`s` and `k`) the long s U+017F and the Kelvin sign U+212A. -/
def SameNameUpToCase (name field : List Char) : Prop :=
  List.Forall₂
    (fun x y => x = y ∨ (97 ≤ y.toNat ∧ y.toNat ≤ 122 ∧ x.toNat + 32 = y.toNat) ∨
      (y = 's' ∧ x = Char.ofNat 0x17f) ∨ (y = 'k' ∧ x = Char.ofNat 0x212a))
    name field

/-- The payload is a JSON object (brackets nested at most 10000 deep, the limit of
encoding/json) none of whose members is named `commit_message` up to letter case. -/
def IsObjectWithoutCommitMessage (payload : String) : Prop :=
  ∃ (w0 body w5 : List Char) (n : Nat),
    IsWs w0 ∧ IsWs w5 ∧ n < 10000 ∧
    (IsWs body ∨
      IsMembersWithout (fun name => SameNameUpToCase name "commit_message".data) n body) ∧
    payload.data = w0 ++ '\x7b' :: (body ++ '\x7d' :: w5)

end JsonText

namespace GoJson

open JsonText

/-- The scanner `s` reads `t` without reporting an error, its `parseState` never shorter
than `k` on the way, and is then in state `s1`. -/
def FeedsAbove (k : Nat) : Scanner → List Char → Scanner → Prop
  | s, [], s1 => s = s1
  | s, c :: cs, s1 =>
    (s.next c).1 ≠ .scanError ∧ k ≤ (s.next c).2.parseState.length ∧
      FeedsAbove k (s.next c).2 cs s1

/-- The scanner in state `step` with stack `ps`, before the end of the top-level value and
without an error. -/
def atStep (step : Step) (ps : List ParseState) : Scanner :=
  { step := step, endTop := false, parseState := ps, err := none }

/-- The scanner has just read a complete value under the stack `ps`: a number may still be
continued, any other value is closed. -/
def AfterValue (s : Scanner) (ps : List ParseState) : Prop :=
  s.parseState = ps ∧ s.endTop = false ∧ s.err = none ∧
    (s.step = .endValue ∨ s.step = .s0 ∨ s.step = .s1 ∨ s.step = .dot0 ∨ s.step = .e0)

/-- A character that may follow a value: whitespace, a comma or a closing bracket. -/
def IsDelim (c : Char) : Prop :=
  c = ' ' ∨ c = '\t' ∨ c = '\r' ∨ c = '\n' ∨ c = ',' ∨ c = ']' ∨ c = '\x7d'

/-- The states in which the scanner may be after a number. -/
def IsNumberEnd (st : Step) : Prop := st = .s0 ∨ st = .s1 ∨ st = .dot0 ∨ st = .e0

/-- What the scanner does with a JSON text of each kind, under a stack `ps` that leaves
room for its nesting. -/
def ScanOK : Kind → Nat → List Char → Prop
  | .value, n, t => ∀ ps : List ParseState, ps ≠ [] → ps.length + n ≤ 10000 →
    ∃ S1, FeedsAbove ps.length (atStep .beginValue ps) t S1 ∧ AfterValue S1 ps
  | .elements, n, t => ∀ ps : List ParseState, ps.length + 1 + n ≤ 10000 →
    ∀ st, (st = .beginValue ∨ st = .beginValueOrEmpty) →
    ∃ S1, FeedsAbove (ps.length + 1) (atStep st (.parseArrayValue :: ps)) t S1 ∧
      AfterValue S1 (.parseArrayValue :: ps)
  | .members, n, t => ∀ ps : List ParseState, ps.length + 1 + n ≤ 10000 →
    ∀ st, (st = .beginString ∨ st = .beginStringOrEmpty) →
    ∃ S1, FeedsAbove (ps.length + 1) (atStep st (.parseObjectKey :: ps)) t S1 ∧
      AfterValue S1 (.parseObjectValue :: ps)

/-- The decoder state in which `value` is entered for a JSON value `c0 :: t1` followed by
`rest`, under the stack `ps`: the first byte has been read. -/
def atValue (ps : List ParseState) (c0 : Char) (rest : List Char) (se : Option String)
    (cm : String) : DecodeState :=
  ⟨c0, rest, ((atStep .beginValue ps).next c0).1, ((atStep .beginValue ps).next c0).2, se, cm⟩

/-- The decoder state after a value that is followed by `x :: xs`, under the stack `ps`. -/
def afterValueAt (ps : List ParseState) (x : Char) (xs : List Char) (se : Option String)
    (cm : String) : DecodeState :=
  ⟨x, xs, (stateEndValue (atStep .endValue ps) x).1, (stateEndValue (atStep .endValue ps) x).2,
    se, cm⟩

/-! ## Facts about characters -/

theorem char_le_iff (a b : Char) : a ≤ b ↔ a.toNat ≤ b.toNat := Iff.rfl

theorem char_ne_of_toNat {a b : Char} (h : a.toNat ≠ b.toNat) : a ≠ b :=
  fun hab => h (congrArg Char.toNat hab)

theorem hexDigit_facts {c : Char} {v : Nat} (h : IsHexDigit c v) :
    hexVal c = some v ∧ isHex c = true ∧ c ≠ '\x22' ∧ c ≠ '\x5c' ∧ 0x20 ≤ c.toNat ∧ v < 16 := by
  have e1 : c ≠ '\x22' := by
    apply char_ne_of_toNat
    rcases h with h | h | h <;> simp <;> omega
  have e2 : c ≠ '\x5c' := by
    apply char_ne_of_toNat
    rcases h with h | h | h <;> simp <;> omega
  refine ⟨?_, ?_, e1, e2, ?_, ?_⟩
  · rcases h with ⟨h1, h2, h3⟩ | ⟨h1, h2, h3⟩ | ⟨h1, h2, h3⟩
    · have : ('0' ≤ c ∧ c ≤ '9') := by simp [char_le_iff]; omega
      simp only [hexVal, this, and_self, if_true]
      congr 1; omega
    · have n1 : ¬ ('0' ≤ c ∧ c ≤ '9') := by simp [char_le_iff]; omega
      have : ('a' ≤ c ∧ c ≤ 'f') := by simp [char_le_iff]; omega
      simp only [hexVal, n1, this, and_self, if_true, if_false]
      congr 1; omega
    · have n1 : ¬ ('0' ≤ c ∧ c ≤ '9') := by simp [char_le_iff]; omega
      have n2 : ¬ ('a' ≤ c ∧ c ≤ 'f') := by simp [char_le_iff]; omega
      have : ('A' ≤ c ∧ c ≤ 'F') := by simp [char_le_iff]; omega
      simp only [hexVal, n1, n2, this, and_self, if_true, if_false]
      congr 1; omega
  · rcases h with ⟨h1, h2, h3⟩ | ⟨h1, h2, h3⟩ | ⟨h1, h2, h3⟩ <;>
      simp [isHex, char_le_iff] <;> omega
  · rcases h with h | h | h <;> omega
  · rcases h with h | h | h <;> omega

theorem getu4_of_escape {n : Nat} {t : List Char} (h : IsUnicodeEscape n t) (rest : List Char) :
    getu4 (t ++ rest) = some n ∧ n < 0x10000 ∧ ∃ h1 h2 h3 h4, t = ['\x5c', 'u', h1, h2, h3, h4] ∧
      (∃ a, IsHexDigit h1 a) ∧ (∃ a, IsHexDigit h2 a) ∧ (∃ a, IsHexDigit h3 a) ∧
      (∃ a, IsHexDigit h4 a) := by
  cases h with
  | mk h1 h2 h3 h4 a b c d ha hb hc hd =>
    have fa := hexDigit_facts ha
    have fb := hexDigit_facts hb
    have fc := hexDigit_facts hc
    have fd := hexDigit_facts hd
    refine ⟨?_, by omega, h1, h2, h3, h4, rfl, ⟨a, ha⟩, ⟨b, hb⟩, ⟨c, hc⟩, ⟨d, hd⟩⟩
    simp only [List.cons_append, List.nil_append, getu4, fa.1, fb.1, fc.1, fd.1]
    congr 1
    ring

/-! ## The string loops on the text of a string value -/

theorem char_facts (c : Char) : c.toNat < 0xd800 ∨ (0xdfff < c.toNat ∧ c.toNat < 0x110000) := c.valid

theorem unquoteLoop_unescaped {c : Char} (h0 : 0x20 ≤ c.toNat) (h1 : c ≠ '\x22') (h2 : c ≠ '\x5c')
    (rest : List Char) : unquoteLoop (c :: rest) = (unquoteLoop rest).map (c :: ·) := by
  rw [unquoteLoop.eq_6 c rest (fun h _ => h2 h) (fun _ h _ => h2 h) (fun _ _ h _ => h2 h)]
  have : ¬ (c = '\x22' ∨ c.toNat < 0x20) := by
    intro h
    rcases h with h | h
    · exact h1 h
    · omega
  rw [if_neg this]

theorem unquoteLoop_unicode {n : Nat} {t : List Char} (h : IsUnicodeEscape n t)
    (hn : isSurrogate n = false) (rest : List Char) :
    unquoteLoop (t ++ rest) = (unquoteLoop rest).map (Char.ofNat n :: ·) := by
  obtain ⟨hg, _, h1, h2, h3, h4, rfl, _⟩ := getu4_of_escape h rest
  simp only [List.cons_append, List.nil_append] at hg ⊢
  rw [unquoteLoop.eq_3 n h1 h2 h3 h4 rest hg]
  simp [hn]

theorem unquoteLoop_pair {c : Char} {hi lo : List Char} (hc : 0x10000 ≤ c.toNat)
    (hhi : IsUnicodeEscape (0xD800 + (c.toNat - 0x10000) / 0x400) hi)
    (hlo : IsUnicodeEscape (0xDC00 + (c.toNat - 0x10000) % 0x400) lo) (rest : List Char) :
    unquoteLoop ((hi ++ lo) ++ rest) = (unquoteLoop rest).map (c :: ·) := by
  have hv := char_facts c
  obtain ⟨hg, _, h1, h2, h3, h4, rfl, _⟩ := getu4_of_escape hhi (lo ++ rest)
  obtain ⟨hg2, _, l1, l2, l3, l4, rfl, _⟩ := getu4_of_escape hlo rest
  simp only [List.cons_append, List.nil_append] at hg hg2 ⊢
  rw [unquoteLoop.eq_3 _ h1 h2 h3 h4 _ hg]
  have hs : isSurrogate (0xD800 + (c.toNat - 0x10000) / 0x400) = true := by
    simp [isSurrogate]
    omega
  have hdec : decodeRune (0xD800 + (c.toNat - 0x10000) / 0x400)
      (getu4 ('\x5c' :: 'u' :: l1 :: l2 :: l3 :: l4 :: rest)) = c := by
    rw [hg2]
    have hr : 0xd800 ≤ 0xD800 + (c.toNat - 0x10000) / 0x400 ∧
        0xD800 + (c.toNat - 0x10000) / 0x400 < 0xdc00 ∧
        0xdc00 ≤ 0xDC00 + (c.toNat - 0x10000) % 0x400 ∧
        0xDC00 + (c.toNat - 0x10000) % 0x400 < 0xe000 := by omega
    simp only [decodeRune, hr, and_self, if_true]
    have : (0xD800 + (c.toNat - 0x10000) / 0x400 - 0xd800) * 1024 +
        (0xDC00 + (c.toNat - 0x10000) % 0x400 - 0xdc00) + 0x10000 = c.toNat := by omega
    rw [this]
    exact Char.ofNat_toNat c
  have hne : c ≠ replacementChar := by
    apply char_ne_of_toNat
    have : replacementChar.toNat = 0xFFFD := by decide
    omega
  simp only [hs, if_true, hdec, ne_eq, hne, not_false_eq_true]

theorem unquoteLoop_encodesChar {c : Char} {t : List Char} (h : EncodesChar c t)
    (rest : List Char) : unquoteLoop (t ++ rest) = (unquoteLoop rest).map (c :: ·) := by
  cases h with
  | unescaped _ h0 h1 h2 => exact unquoteLoop_unescaped h0 h1 h2 rest
  | unicode _ _ hu =>
    have hs : isSurrogate c.toNat = false := by
      have := char_facts c
      simp [isSurrogate]
      omega
    rw [unquoteLoop_unicode hu hs, Char.ofNat_toNat]
  | surrogatePair _ hi lo hc hhi hlo => exact unquoteLoop_pair hc hhi hlo rest
  | _ =>
    simp only [List.cons_append, List.nil_append]
    rw [unquoteLoop.eq_5 _ _ (by decide)]
    simp

theorem unquoteLoop_encodes {s t : List Char} (h : EncodesString s t) :
    unquoteLoop t = some s := by
  induction h with
  | nil => rfl
  | cons c s t ts hc _ ih => rw [unquoteLoop_encodesChar hc, ih]; rfl

theorem rescanString_plain {c : Char} (h1 : c ≠ '\x22') (h2 : c ≠ '\x5c') (rest : List Char) :
    rescanString (c :: rest) = (c :: (rescanString rest).1, (rescanString rest).2) :=
  rescanString.eq_5 c rest h1 (fun h _ => h2 h) (fun _ _ h _ => h2 h)

theorem rescanString_escape {n : Nat} {t : List Char} (h : IsUnicodeEscape n t)
    (rest : List Char) :
    rescanString (t ++ rest) = (t ++ (rescanString rest).1, (rescanString rest).2) := by
  obtain ⟨_, _, h1, h2, h3, h4, rfl, ⟨a, ha⟩, ⟨b, hb⟩, ⟨c, hc⟩, ⟨d, hd⟩⟩ := getu4_of_escape h rest
  have fa := hexDigit_facts ha
  have fb := hexDigit_facts hb
  have fc := hexDigit_facts hc
  have fd := hexDigit_facts hd
  simp only [List.cons_append, List.nil_append]
  rw [rescanString.eq_4, rescanString_plain fa.2.2.1 fa.2.2.2.1,
    rescanString_plain fb.2.2.1 fb.2.2.2.1,
    rescanString_plain fc.2.2.1 fc.2.2.2.1, rescanString_plain fd.2.2.1 fd.2.2.2.1]

theorem rescanString_encodesChar {c : Char} {t : List Char} (h : EncodesChar c t)
    (rest : List Char) :
    rescanString (t ++ rest) = (t ++ (rescanString rest).1, (rescanString rest).2) := by
  cases h with
  | unescaped _ _ h1 h2 => exact rescanString_plain h1 h2 rest
  | unicode _ _ hu => exact rescanString_escape hu rest
  | surrogatePair _ hi lo _ hhi hlo =>
    rw [List.append_assoc, rescanString_escape hhi, rescanString_escape hlo, List.append_assoc]
  | _ =>
    simp only [List.cons_append, List.nil_append]
    rw [rescanString.eq_4]

theorem rescanString_encodes {s t : List Char} (h : EncodesString s t) (rest : List Char) :
    rescanString (t ++ '\x22' :: rest) = (t ++ ['\x22'], rest) := by
  induction h with
  | nil => rfl
  | cons c s t ts hc _ ih =>
    rw [List.append_assoc, rescanString_encodesChar hc, ih, List.append_assoc]

/-! ## Feeding the scanner -/

theorem feeds_append {s s1 s2 : Scanner} {t u : List Char} (h1 : Feeds s t s1)
    (h2 : Feeds s1 u s2) : Feeds s (t ++ u) s2 := by
  induction t generalizing s with
  | nil => cases h1; exact h2
  | cons c cs ih => exact ⟨h1.1, ih h1.2⟩

theorem feeds_one {s : Scanner} {c : Char} (op : Op) {s1 : Scanner} (h : s.next c = (op, s1))
    (hop : op ≠ .scanError) : Feeds s [c] s1 := by
  refine ⟨?_, ?_⟩
  · rw [h]; exact hop
  · rw [h]; rfl

theorem checkValidLoop_feeds {s s1 : Scanner} {t : List Char} (h : Feeds s t s1)
    (rest : List Char) : checkValidLoop s (t ++ rest) = checkValidLoop s1 rest := by
  induction t generalizing s with
  | nil => cases h; rfl
  | cons c cs ih =>
    obtain ⟨hne, hf⟩ := h
    rw [List.cons_append, checkValidLoop]
    rw [← ih hf]
    split
    · rename_i s2 heq
      rw [heq] at hne
      exact absurd rfl hne
    · rename_i op s2 hne2 heq
      rw [heq]

theorem isSpace_of_ws {w : List Char} (h : IsWs w) : ∀ c ∈ w, isSpace c = true := by
  intro c hc
  rcases h c hc with h | h | h | h <;> subst h <;> decide

theorem feeds_ws {s : Scanner} (hs : ∀ c, isSpace c = true → s.next c = (.scanSkipSpace, s))
    {w : List Char} (hw : IsWs w) : Feeds s w s := by
  induction w with
  | nil => rfl
  | cons c cs ih =>
    have hc := hs c (isSpace_of_ws hw c (List.mem_cons_self _ _))
    refine ⟨by rw [hc]; simp, ?_⟩
    rw [hc]
    exact ih (fun x hx => hw x (List.mem_cons_of_mem _ hx))

theorem feeds_plain {c : Char} (h0 : 0x20 ≤ c.toNat) (h1 : c ≠ '\x22') (h2 : c ≠ '\x5c')
    (e : Bool) (ps : List ParseState) (err : Option String) :
    Feeds (inStr e ps err) [c] (inStr e ps err) := by
  apply feeds_one .scanContinue _ (by decide)
  have : ¬ c.toNat < 0x20 := by omega
  simp [Scanner.next, inStr, stateInString, h1, h2, this]

theorem feeds_escape {n : Nat} {t : List Char} (h : IsUnicodeEscape n t)
    (e : Bool) (ps : List ParseState) (err : Option String) :
    Feeds (inStr e ps err) t (inStr e ps err) := by
  obtain ⟨_, _, h1, h2, h3, h4, rfl, ⟨a, ha⟩, ⟨b, hb⟩, ⟨c, hc⟩, ⟨d, hd⟩⟩ := getu4_of_escape h []
  have fa := (hexDigit_facts ha).2.1
  have fb := (hexDigit_facts hb).2.1
  have fc := (hexDigit_facts hc).2.1
  have fd := (hexDigit_facts hd).2.1
  simp [Feeds, Scanner.next, inStr, stateInString, stateInStringEsc, stateInStringEscHex,
    fa, fb, fc, fd]

theorem feeds_encodesChar {c : Char} {t : List Char} (h : EncodesChar c t)
    (e : Bool) (ps : List ParseState) (err : Option String) :
    Feeds (inStr e ps err) t (inStr e ps err) := by
  cases h with
  | unescaped _ h0 h1 h2 => exact feeds_plain h0 h1 h2 e ps err
  | unicode _ _ hu => exact feeds_escape hu e ps err
  | surrogatePair _ hi lo _ hhi hlo =>
    exact feeds_append (feeds_escape hhi e ps err) (feeds_escape hlo e ps err)
  | _ => simp [Feeds, Scanner.next, inStr, stateInString, stateInStringEsc]

theorem feeds_encodes {s t : List Char} (h : EncodesString s t)
    (e : Bool) (ps : List ParseState) (err : Option String) :
    Feeds (inStr e ps err) t (inStr e ps err) := by
  induction h with
  | nil => rfl
  | cons c s t ts hc _ ih => exact feeds_append (feeds_encodesChar hc e ps err) ih

theorem feeds_cons {s s2 : Scanner} {c : Char} {t : List Char} (op : Op) (s1 : Scanner)
    (h : s.next c = (op, s1)) (hop : op ≠ .scanError) (ht : Feeds s1 t s2) :
    Feeds s (c :: t) s2 := by
  refine ⟨?_, ?_⟩
  · rw [h]; exact hop
  · rw [h]; exact ht

/-! ## Skipping whitespace in the decoder -/

theorem scanWhileLoop_ws {s : Scanner}
    (hs : ∀ c, isSpace c = true → s.next c = (.scanSkipSpace, s))
    {w : List Char} (hw : IsWs w) (last c : Char) (rest : List Char)
    (hc : (s.next c).1 ≠ .scanSkipSpace) :
    scanWhileLoop .scanSkipSpace s last (w ++ c :: rest) = (c, rest, (s.next c).1, (s.next c).2) := by
  induction w generalizing last with
  | nil => simp [scanWhileLoop, hc]
  | cons x xs ih =>
    have hx := hs x (isSpace_of_ws hw x (List.mem_cons_self _ _))
    rw [List.cons_append, scanWhileLoop, hx]
    simp only [ne_eq, not_true_eq_false, if_false]
    exact ih (fun y hy => hw y (List.mem_cons_of_mem _ hy)) x

theorem stateEndValue_space {s : Scanner} (hps : s.parseState ≠ []) {c : Char}
    (hc : isSpace c = true) :
    stateEndValue s c = (.scanSkipSpace, { s with step := .endValue }) := by
  unfold stateEndValue
  split
  · rename_i h; exact absurd h hps
  · simp [hc]

theorem stateEndValue_not_space {s : Scanner} (hps : s.parseState ≠ []) {c : Char}
    (hc : isSpace c = false) : (stateEndValue s c).1 ≠ .scanSkipSpace := by
  unfold stateEndValue
  split
  · rename_i h; exact absurd h hps
  · simp only [hc, Bool.false_eq_true, if_false]
    split <;> (repeat' split) <;> simp [Scanner.error]

theorem stateEndValue_step (s : Scanner) (x : Step) (c : Char) (hps : s.parseState ≠ []) :
    stateEndValue { s with step := x } c = stateEndValue s c := by
  unfold stateEndValue
  split
  · rename_i h; exact absurd h hps
  · rename_i ps rest h
    simp only at h
    rw [h]
    simp only [Scanner.error, Scanner.popParseState]
    split
    · rfl
    · split <;> (repeat' split) <;> simp_all

theorem rescanLiteral_string {d : DecodeState} (hl : d.last = '\x22') {item t : List Char}
    (hr : rescanString d.rest = (item, t)) :
    d.rescanLiteral = ('\x22' :: item, endValueAt d t) := by
  unfold DecodeState.rescanLiteral endValueAt
  simp only [hl, if_true, hr]
  cases t <;> rfl

theorem skip_after_value (d : DecodeState) (hps : d.scan.parseState ≠ []) {w : List Char}
    (hw : IsWs w) {c : Char} (hc : isSpace c = false) (rest : List Char) :
    (if (endValueAt d (w ++ c :: rest)).opcode = .scanSkipSpace then
        (endValueAt d (w ++ c :: rest)).scanWhile .scanSkipSpace
      else endValueAt d (w ++ c :: rest)) =
      { d with last := c, rest := rest, opcode := (stateEndValue d.scan c).1,
               scan := (stateEndValue d.scan c).2 } := by
  cases w with
  | nil =>
    simp only [List.nil_append, endValueAt]
    rw [if_neg (stateEndValue_not_space hps hc)]
  | cons x xs =>
    have hx := isSpace_of_ws hw x (List.mem_cons_self _ _)
    have hxs : IsWs xs := fun y hy => hw y (List.mem_cons_of_mem _ hy)
    simp only [List.cons_append, endValueAt, stateEndValue_space hps hx, if_true]
    have stable : ∀ y, isSpace y = true →
        Scanner.next { d.scan with step := .endValue } y =
          (.scanSkipSpace, { d.scan with step := .endValue }) := by
      intro y hy
      simp only [Scanner.next]
      rw [stateEndValue_space (by simpa using hps) hy]
    have hnext : Scanner.next { d.scan with step := .endValue } c = stateEndValue d.scan c := by
      simp only [Scanner.next]
      exact stateEndValue_step d.scan .endValue c hps
    simp only [DecodeState.scanWhile]
    rw [scanWhileLoop_ws stable hxs x c rest (by rw [hnext]; exact stateEndValue_not_space hps hc)]
    simp only [hnext]

theorem endValueAt_commitMessage (d : DecodeState) (t : List Char) (m : String) :
    { endValueAt d t with commitMessage := m } = endValueAt { d with commitMessage := m } t := by
  cases t <;> rfl

theorem scanNext_fields (d : DecodeState) :
    d.scanNext.commitMessage = d.commitMessage ∧ d.scanNext.savedError = d.savedError := by
  unfold DecodeState.scanNext
  split <;> exact ⟨rfl, rfl⟩

theorem unquoteBytes_quoted (body : List Char) :
    unquoteBytes ('\x22' :: (body ++ ['\x22'])) = unquoteLoop body := by
  simp [unquoteBytes]

theorem stable_beginValue (e : Bool) (ps : List ParseState) (err : Option String) :
    ∀ c, isSpace c = true →
      Scanner.next { step := .beginValue, endTop := e, parseState := ps, err := err } c =
        (.scanSkipSpace, { step := .beginValue, endTop := e, parseState := ps, err := err }) := by
  intro c hc
  simp [Scanner.next, stateBeginValue, hc]

theorem stable_beginStringOrEmpty (e : Bool) (ps : List ParseState) (err : Option String) :
    ∀ c, isSpace c = true →
      Scanner.next { step := .beginStringOrEmpty, endTop := e, parseState := ps, err := err } c =
        (.scanSkipSpace,
          { step := .beginStringOrEmpty, endTop := e, parseState := ps, err := err }) := by
  intro c hc
  simp [Scanner.next, stateBeginStringOrEmpty, hc]

theorem stable_endValue (e : Bool) (p : ParseState) (ps : List ParseState) (err : Option String) :
    ∀ c, isSpace c = true →
      Scanner.next { step := .endValue, endTop := e, parseState := p :: ps, err := err } c =
        (.scanSkipSpace,
          { step := .endValue, endTop := e, parseState := p :: ps, err := err }) := by
  intro c hc
  simp [Scanner.next, stateEndValue, hc]

theorem stable_endTop (ps : List ParseState) :
    ∀ c, isSpace c = true →
      Scanner.next { step := .endTop, endTop := true, parseState := ps, err := none } c =
        (.scanEnd, { step := .endTop, endTop := true, parseState := ps, err := none }) := by
  intro c hc
  simp [Scanner.next, stateEndTop, hc]

theorem feeds_wsTop {w : List Char} (hw : IsWs w) (ps : List ParseState) :
    Feeds { step := .endTop, endTop := true, parseState := ps, err := none } w
      { step := .endTop, endTop := true, parseState := ps, err := none } := by
  induction w with
  | nil => rfl
  | cons c cs ih =>
    have hc := stable_endTop ps c (isSpace_of_ws hw c (List.mem_cons_self _ _))
    exact feeds_cons _ _ hc (by decide) (ih (fun x hx => hw x (List.mem_cons_of_mem _ hx)))

theorem checkValid_commitMessageObject {payload s : String}
    (h : IsCommitMessageObject payload s) : checkValid payload.toList = none := by
  obtain ⟨w0, w1, w2, w3, w4, w5, body, h0, h1, h2, h3, h4, h5, hbody, hp⟩ := h
  have hfeed : Feeds Scanner.reset payload.data ⟨.endTop, true, [], none⟩ := by
    rw [hp]
    refine feeds_append (feeds_ws (stable_beginValue _ _ _) h0) ?_
    refine feeds_cons .scanBeginObject ⟨.beginStringOrEmpty, false, [.parseObjectKey], none⟩
      rfl (by decide) ?_
    refine feeds_append (feeds_ws (stable_beginStringOrEmpty _ _ _) h1) ?_
    have hkey : Feeds ⟨.beginStringOrEmpty, false, [.parseObjectKey], none⟩
        "\x22commit_message\x22".data ⟨.endValue, false, [.parseObjectKey], none⟩ := by
      simp [Feeds, Scanner.next, stateBeginStringOrEmpty, stateBeginString, stateInString, isSpace]
    refine feeds_append hkey ?_
    refine feeds_append (feeds_ws (stable_endValue _ _ _ _) h2) ?_
    refine feeds_cons .scanObjectKey ⟨.beginValue, false, [.parseObjectValue], none⟩
      rfl (by decide) ?_
    refine feeds_append (feeds_ws (stable_beginValue _ _ _) h3) ?_
    refine feeds_cons .scanBeginLiteral (inStr false [.parseObjectValue] none) rfl (by decide) ?_
    refine feeds_append (feeds_encodes hbody _ _ _) ?_
    refine feeds_cons .scanContinue ⟨.endValue, false, [.parseObjectValue], none⟩
      rfl (by decide) ?_
    refine feeds_append (feeds_ws (stable_endValue _ _ _ _) h4) ?_
    refine feeds_cons .scanEndObject ⟨.endTop, true, [], none⟩ rfl (by decide) ?_
    exact feeds_wsTop h5 _
  have := checkValidLoop_feeds hfeed []
  rw [List.append_nil] at this
  rw [checkValid, String.toList, this]
  rfl

theorem scanWhile_ws {S : Scanner}
    (hs : ∀ c, isSpace c = true → S.next c = (.scanSkipSpace, S))
    {w : List Char} (hw : IsWs w) (c : Char) (hc : (S.next c).1 ≠ .scanSkipSpace)
    (last : Char) (rest : List Char) (op : Op) (se : Option String) (cm : String) :
    DecodeState.scanWhile ⟨last, w ++ c :: rest, op, S, se, cm⟩ .scanSkipSpace =
      ⟨c, rest, (S.next c).1, (S.next c).2, se, cm⟩ := by
  simp only [DecodeState.scanWhile, scanWhileLoop_ws hs hw last c rest hc]

theorem stable_reset :
    ∀ c, isSpace c = true → Scanner.reset.next c = (.scanSkipSpace, Scanner.reset) :=
  stable_beginValue false [] none

theorem literalStore_string_field (d : DecodeState) (body : List Char) :
    d.literalStore ('\x22' :: (body ++ ['\x22'])) .field =
      match unquoteLoop body with
      | none => .error (.panic phasePanicMsg)
      | some s => .ok { d with commitMessage := String.mk s } := by
  simp only [DecodeState.literalStore, List.head?_cons, unquoteBytes_quoted]

theorem decode_commitMessageObject {payload s : String}
    (h : IsCommitMessageObject payload s) (v0 : String) :
    ∃ d, (DecodeState.start payload.data v0).value = .ok d ∧ d.commitMessage = s ∧
      d.savedError = none := by
  obtain ⟨w0, w1, w2, w3, w4, w5, body, h0, h1, h2, h3, h4, h5, hbody, hp⟩ := h
  have hp1 : payload.data = w0 ++ '\x7b' :: (w1 ++ '\x22' :: ("commit_message".data ++
      '\x22' :: (w2 ++ ':' :: (w3 ++ '\x22' :: (body ++ '\x22' :: (w4 ++ '\x7d' :: w5)))))) := by
    rw [hp]; rfl
  -- the opening brace
  have hstart : DecodeState.start payload.data v0 =
      ⟨'\x7b', w1 ++ '\x22' :: ("commit_message".data ++
      '\x22' :: (w2 ++ ':' :: (w3 ++ '\x22' :: (body ++ '\x22' :: (w4 ++ '\x7d' :: w5))))),
        .scanBeginObject, ⟨.beginStringOrEmpty, false, [.parseObjectKey], none⟩, none, v0⟩ := by
    unfold DecodeState.start
    rw [hp1, scanWhile_ws stable_reset h0 '\x7b' (by decide)]
    rfl
  rw [hstart]
  unfold DecodeState.value
  simp only
  unfold DecodeState.objectLoop
  -- the key
  rw [scanWhile_ws (stable_beginStringOrEmpty _ _ _) h1 '\x22' (by decide)]
  have hnext : Scanner.next ⟨.beginStringOrEmpty, false, [.parseObjectKey], none⟩ '\x22' =
      (.scanBeginLiteral, inStr false [.parseObjectKey] none) := rfl
  simp only [hnext]
  have hkey : rescanString ("commit_message".data ++
      '\x22' :: (w2 ++ ':' :: (w3 ++ '\x22' :: (body ++ '\x22' :: (w4 ++ '\x7d' :: w5))))) =
      ("commit_message\x22".data, w2 ++ ':' :: (w3 ++
          '\x22' :: (body ++ '\x22' :: (w4 ++ '\x7d' :: w5)))) := by
    simp [rescanString]
  rw [rescanLiteral_string rfl hkey]
  have hk : unquoteBytes ('\x22' :: "commit_message\x22".data) = some "commit_message".data := by
    decide
  have hf : lookupField "commit_message".data = .field := by decide
  simp only [hk, hf]
  rw [skip_after_value _ (by simp [inStr]) h2 (by decide)]
  have hcolon : stateEndValue (inStr false [.parseObjectKey] none) ':' =
      (.scanObjectKey, ⟨.beginValue, false, [.parseObjectValue], none⟩) := rfl
  simp only [hcolon]
  -- the value
  rw [scanWhile_ws (stable_beginValue _ _ _) h3 '\x22' (by decide)]
  have hquote : Scanner.next ⟨.beginValue, false, [.parseObjectValue], none⟩ '\x22' =
      (.scanBeginLiteral, inStr false [.parseObjectValue] none) := rfl
  simp only [hquote]
  unfold DecodeState.valueLeaf
  simp only
  rw [rescanLiteral_string rfl (rescanString_encodes hbody _)]
  simp only [literalStore_string_field, unquoteLoop_encodes hbody, endValueAt_commitMessage]
  rw [if_neg (by decide : ¬ Target.field = Target.invalid)]
  simp only []
  rw [skip_after_value _ (by simp [inStr]) h4 (by decide)]
  have hclose : stateEndValue (inStr false [.parseObjectValue] none) '\x7d' =
      (.scanEndObject, ⟨.endTop, true, [], none⟩) := rfl
  simp only [hclose]
  refine ⟨_, rfl, ?_, ?_⟩
  · rw [(scanNext_fields _).1]
  · rw [(scanNext_fields _).2]

theorem scanWhileLoop_length (op : Op) (s : Scanner) (last : Char) (data : List Char) :
    (scanWhileLoop op s last data).2.1.length ≤ data.length := by
  induction data generalizing s last with
  | nil => simp [scanWhileLoop]
  | cons c cs ih =>
    rw [scanWhileLoop]
    split
    · simp
    · exact Nat.le_succ_of_le (ih _ _)

theorem scanWhileLoop_cons_length (op : Op) (s : Scanner) (last c : Char) (cs : List Char) :
    (scanWhileLoop op s last (c :: cs)).2.1.length < (c :: cs).length := by
  rw [scanWhileLoop]
  split
  · simp
  · exact Nat.lt_succ_of_le (scanWhileLoop_length _ _ _ _)

theorem eof_opcode (s : Scanner) : s.eof.1 = .scanEnd ∨ s.eof.1 = .scanError := by
  unfold Scanner.eof
  split
  · exact Or.inr rfl
  · split
    · exact Or.inl rfl
    · simp only
      split
      · exact Or.inl rfl
      · split <;> exact Or.inr rfl

theorem scanWhile_rest (d : DecodeState) (op : Op) :
    (d.scanWhile op).rest.length ≤ d.rest.length :=
  scanWhileLoop_length _ _ _ _

theorem scanWhile_progress (d : DecodeState) (op : Op) :
    (d.scanWhile op).rest.length < d.rest.length ∨
      (d.scanWhile op).opcode = .scanEnd ∨ (d.scanWhile op).opcode = .scanError := by
  cases h : d.rest with
  | nil =>
    right
    simp only [DecodeState.scanWhile, h, scanWhileLoop]
    exact eof_opcode _
  | cons c cs =>
    left
    simp only [DecodeState.scanWhile, h]
    exact scanWhileLoop_cons_length _ _ _ _ _

theorem rescanString_length (l : List Char) : (rescanString l).2.length ≤ l.length := by
  induction l using rescanString.induct with
  | case1 => simp [rescanString]
  | case2 cs => simp [rescanString]
  | case3 => simp [rescanString]
  | case4 e cs ih =>
    rw [rescanString.eq_4]
    simp only [List.length_cons]
    omega
  | case5 c cs h1 h2 h3 ih =>
    rw [rescanString.eq_5 c cs h1 h2 h3]
    simp only [List.length_cons]
    omega

theorem rescanNumber_length (l : List Char) : (rescanNumber l).2.length ≤ l.length := by
  induction l with
  | nil => simp [rescanNumber]
  | cons c cs ih =>
    rw [rescanNumber]
    split
    · simp only [List.length_cons]; omega
    · simp

theorem rescanLiteral_rest (d : DecodeState) :
    d.rescanLiteral.2.rest.length ≤ d.rest.length := by
  have key : ∀ r : List Char × List Char, r.2.length ≤ d.rest.length →
      (match r.2 with
        | c :: cs =>
          (d.last :: r.1,
            { d with last := c, rest := cs, opcode := (stateEndValue d.scan c).1,
                     scan := (stateEndValue d.scan c).2 })
        | [] => (d.last :: r.1, { d with rest := [], opcode := .scanEnd })).2.rest.length ≤
        d.rest.length := by
    intro r hr
    split
    · rename_i c cs h
      rw [h] at hr
      simp only [List.length_cons] at hr
      simp only
      omega
    · simp
  unfold DecodeState.rescanLiteral
  apply key
  split
  · exact rescanString_length _
  · split
    · exact rescanNumber_length _
    · split
      · simp [List.splitAt_eq]
      · split
        · simp [List.splitAt_eq]
        · split
          · simp [List.splitAt_eq]
          · exact Nat.le_refl _

theorem skipLoop_length (depth : Nat) (s : Scanner) (data : List Char)
    (r : Char × List Char × Op × Scanner) (h : skipLoop depth s data = some r) :
    r.2.1.length ≤ data.length := by
  induction data generalizing s with
  | nil => simp [skipLoop] at h
  | cons c cs ih =>
    rw [skipLoop] at h
    split at h
    · simp only [Option.some.injEq] at h
      subst h
      simp
    · exact Nat.le_succ_of_le (ih _ h)

theorem skip_rest (d d1 : DecodeState) (h : d.skip = .ok d1) :
    d1.rest.length ≤ d.rest.length := by
  unfold DecodeState.skip at h
  split at h
  · rename_i r hr
    simp only [Except.ok.injEq] at h
    subst h
    exact skipLoop_length _ _ _ _ hr
  · cases h

theorem scanNext_rest (d : DecodeState) : d.scanNext.rest.length ≤ d.rest.length := by
  unfold DecodeState.scanNext
  split
  · rename_i c cs h
    simp [h]
  · rename_i h
    simp [h]

theorem saveError_rest (d : DecodeState) (msg : String) : (d.saveError msg).rest = d.rest := by
  unfold DecodeState.saveError
  split <;> rfl

theorem literalStore_rest (d d1 : DecodeState) (item : List Char) (tgt : Target)
    (h : d.literalStore item tgt = .ok d1) : d1.rest = d.rest := by
  unfold DecodeState.literalStore at h
  split at h
  · cases h; rfl
  · cases h; exact saveError_rest _ _
  · cases h; exact saveError_rest _ _
  · split at h
    · cases h
    · split at h <;> cases h
      · rfl
      · exact saveError_rest _ _
  · split at h
    · cases h
    · cases h; exact saveError_rest _ _
  · cases h; exact saveError_rest _ _

theorem skip_scanNext_rest (d d1 : DecodeState) (h : d.skip.map DecodeState.scanNext = .ok d1) :
    d1.rest.length ≤ d.rest.length := by
  cases hs : d.skip with
  | error a => rw [hs] at h; cases h
  | ok d2 =>
    rw [hs] at h
    simp only [Except.map, Except.ok.injEq] at h
    subst h
    exact Nat.le_trans (scanNext_rest _) (skip_rest _ _ hs)

theorem valueLeaf_rest (d d1 : DecodeState) (tgt : Target) (h : d.valueLeaf tgt = .ok d1) :
    d1.rest.length ≤ d.rest.length := by
  unfold DecodeState.valueLeaf at h
  split at h
  · have := skip_scanNext_rest _ _ h
    split at this
    · exact this
    · rwa [saveError_rest] at this
  · have := skip_scanNext_rest _ _ h
    split at this
    · exact this
    · rwa [saveError_rest] at this
  · split at h
    · cases h
      exact rescanLiteral_rest d
    · rw [literalStore_rest _ _ _ _ h]
      exact rescanLiteral_rest d
  · cases h

theorem skip_abort (d : DecodeState) (a : Abort) (h : d.skip = .error a) : a ≠ .outOfFuel := by
  unfold DecodeState.skip at h
  split at h
  · cases h
  · cases h
    simp

theorem literalStore_abort (d : DecodeState) (item : List Char) (tgt : Target) (a : Abort)
    (h : d.literalStore item tgt = .error a) : a ≠ .outOfFuel := by
  unfold DecodeState.literalStore at h
  split at h
  · cases h
  · cases h
  · cases h
  · split at h
    · cases h; simp
    · split at h <;> cases h
  · split at h
    · cases h; simp
    · cases h
  · cases h

theorem valueLeaf_abort (d : DecodeState) (tgt : Target) (a : Abort)
    (h : d.valueLeaf tgt = .error a) : a ≠ .outOfFuel := by
  unfold DecodeState.valueLeaf at h
  split at h
  · generalize (if tgt = Target.invalid then d
      else d.saveError (unmarshalTypeError "array" tgt)) = d0 at h
    cases hs : d0.skip with
    | error b =>
      rw [hs] at h
      cases h
      exact skip_abort _ _ hs
    | ok d2 => rw [hs] at h; cases h
  · generalize (if tgt = Target.invalid then d
      else d.saveError (unmarshalTypeError "object" tgt)) = d0 at h
    cases hs : d0.skip with
    | error b =>
      rw [hs] at h
      cases h
      exact skip_abort _ _ hs
    | ok d2 => rw [hs] at h; cases h
  · split at h
    · cases h
    · exact literalStore_abort _ _ _ _ h
  · cases h
    simp

theorem skipSpaces_rest (d : DecodeState) :
    (if d.opcode = .scanSkipSpace then d.scanWhile .scanSkipSpace else d).rest.length ≤
      d.rest.length := by
  split
  · exact scanWhile_rest _ _
  · exact Nat.le_refl _

theorem objectLoop_fuel (fuel : Nat) (d : DecodeState) (h : d.rest.length < fuel) :
    d.objectLoop fuel ≠ .error .outOfFuel := by
  induction fuel generalizing d with
  | zero => omega
  | succ n ih =>
    rw [DecodeState.objectLoop]
    simp only
    have hp := scanWhile_progress d .scanSkipSpace
    generalize d.scanWhile .scanSkipSpace = d1 at hp ⊢
    by_cases h1 : d1.opcode = .scanEndObject
    · rw [if_pos h1]; simp
    rw [if_neg h1]
    by_cases h2 : d1.opcode ≠ .scanBeginLiteral
    · rw [if_pos h2]; simp
    rw [if_neg h2]
    have hlit : d1.opcode = .scanBeginLiteral := by simpa using h2
    have hlt : d1.rest.length < d.rest.length := by
      rcases hp with hp | hp | hp
      · exact hp
      · rw [hlit] at hp; cases hp
      · rw [hlit] at hp; cases hp
    cases hk : unquoteBytes d1.rescanLiteral.1 with
    | none => simp
    | some key =>
      simp only
      have h3len := Nat.le_trans (skipSpaces_rest d1.rescanLiteral.2) (rescanLiteral_rest d1)
      generalize (if d1.rescanLiteral.2.opcode = .scanSkipSpace then
        d1.rescanLiteral.2.scanWhile .scanSkipSpace else d1.rescanLiteral.2) = d3 at h3len ⊢
      by_cases h3 : d3.opcode ≠ .scanObjectKey
      · rw [if_pos h3]; simp
      rw [if_neg h3]
      cases hv : (d3.scanWhile .scanSkipSpace).valueLeaf (lookupField key) with
      | error a =>
        simp only
        intro hcon
        cases hcon
        exact valueLeaf_abort _ _ _ hv rfl
      | ok d4 =>
        simp only
        have h4len := valueLeaf_rest _ _ _ hv
        have h3w := scanWhile_rest d3 .scanSkipSpace
        have h5len := skipSpaces_rest d4
        generalize (if d4.opcode = .scanSkipSpace then d4.scanWhile .scanSkipSpace else d4) = d5
          at h5len ⊢
        by_cases h5 : d5.opcode = .scanEndObject
        · rw [if_pos h5]; simp
        rw [if_neg h5]
        by_cases h6 : d5.opcode ≠ .scanObjectValue
        · rw [if_pos h6]; simp
        rw [if_neg h6]
        apply ih
        omega

theorem value_fuel (d : DecodeState) : d.value ≠ .error .outOfFuel := by
  unfold DecodeState.value
  split
  · generalize d.saveError (unmarshalTypeError "array" Target.top) = d0
    cases hs : d0.skip with
    | error b =>
      simp only [Except.map]
      intro hcon
      cases hcon
      exact skip_abort _ _ hs rfl
    | ok d2 => simp [Except.map]
  · have := objectLoop_fuel (d.rest.length + 1) d (Nat.lt_succ_self _)
    cases ho : d.objectLoop (d.rest.length + 1) with
    | error b =>
      rw [ho] at this
      simp only [Except.map]
      intro hcon
      cases hcon
      exact this rfl
    | ok d2 => simp [Except.map]
  · intro hcon
    exact literalStore_abort _ _ _ _ hcon rfl
  · simp

end GoJson

namespace Cmd

/-- The fuel given to the object loop always suffices: `Unmarshal` returns or panics. -/
theorem Unmarshal_fuel (content : String) (v : CommitMessageResponse) :
    Unmarshal content v ≠ .error .outOfFuel := by
  unfold Unmarshal
  split
  · simp
  · split
    · rename_i a ha
      intro hcon
      cases hcon
      exact GoJson.value_fuel _ ha
    · simp

end Cmd

namespace GoJson

open JsonText

/-! ## Feeding a JSON value to the scanner -/

theorem feedsAbove_feeds {k : Nat} {s s1 : Scanner} {t : List Char} (h : FeedsAbove k s t s1) :
    Feeds s t s1 := by
  induction t generalizing s with
  | nil => exact h
  | cons c cs ih => exact ⟨h.1, ih h.2.2⟩

theorem feedsAbove_mono {k j : Nat} (hj : j ≤ k) {s s1 : Scanner} {t : List Char}
    (h : FeedsAbove k s t s1) : FeedsAbove j s t s1 := by
  induction t generalizing s with
  | nil => exact h
  | cons c cs ih => exact ⟨h.1, Nat.le_trans hj h.2.1, ih h.2.2⟩

theorem feedsAbove_append {k : Nat} {s s1 s2 : Scanner} {t u : List Char}
    (h1 : FeedsAbove k s t s1) (h2 : FeedsAbove k s1 u s2) : FeedsAbove k s (t ++ u) s2 := by
  induction t generalizing s with
  | nil => cases h1; exact h2
  | cons c cs ih => exact ⟨h1.1, h1.2.1, ih h1.2.2⟩

theorem feedsAbove_cons {k : Nat} {s s2 : Scanner} {c : Char} {t : List Char} (op : Op)
    (s1 : Scanner) (h : s.next c = (op, s1)) (hop : op ≠ .scanError)
    (hk : k ≤ s1.parseState.length) (ht : FeedsAbove k s1 t s2) : FeedsAbove k s (c :: t) s2 := by
  refine ⟨?_, ?_, ?_⟩
  · rw [h]; exact hop
  · rw [h]; exact hk
  · rw [h]; exact ht

theorem feedsAbove_one {k : Nat} {s : Scanner} {c : Char} (op : Op) (s1 : Scanner)
    (h : s.next c = (op, s1)) (hop : op ≠ .scanError) (hk : k ≤ s1.parseState.length) :
    FeedsAbove k s [c] s1 :=
  feedsAbove_cons op s1 h hop hk rfl

theorem feedsAbove_ws {k : Nat} {s : Scanner}
    (hs : ∀ c, isSpace c = true → s.next c = (.scanSkipSpace, s))
    (hk : k ≤ s.parseState.length) {w : List Char} (hw : IsWs w) : FeedsAbove k s w s := by
  induction w with
  | nil => rfl
  | cons c cs ih =>
    have hc := hs c (isSpace_of_ws hw c (List.mem_cons_self _ _))
    exact feedsAbove_cons _ _ hc (by decide) hk (ih (fun x hx => hw x (List.mem_cons_of_mem _ hx)))

theorem digit_le {d : Char} (h : IsDigit d) : '0' ≤ d ∧ d ≤ '9' := by
  simp only [char_le_iff]
  exact h

theorem digit_ne {d : Char} (h : IsDigit d) :
    d ≠ '.' ∧ d ≠ 'e' ∧ d ≠ 'E' ∧ d ≠ '+' ∧ d ≠ '-' ∧ isSpace d = false := by
  have h1 := h.1
  have h2 := h.2
  refine ⟨?_, ?_, ?_, ?_, ?_, ?_⟩
  · apply char_ne_of_toNat; simp; omega
  · apply char_ne_of_toNat; simp; omega
  · apply char_ne_of_toNat; simp; omega
  · apply char_ne_of_toNat; simp; omega
  · apply char_ne_of_toNat; simp; omega
  · have a1 : d ≠ ' ' := by apply char_ne_of_toNat; simp; omega
    have a2 : d ≠ '\t' := by apply char_ne_of_toNat; simp; omega
    have a3 : d ≠ '\r' := by apply char_ne_of_toNat; simp; omega
    have a4 : d ≠ '\n' := by apply char_ne_of_toNat; simp; omega
    simp [isSpace, a1, a2, a3, a4]

theorem feeds_digits_s1 {k : Nat} (ps : List ParseState) (hk : k ≤ ps.length) {ds : List Char}
    (h : ∀ d ∈ ds, IsDigit d) : FeedsAbove k (atStep .s1 ps) ds (atStep .s1 ps) := by
  induction ds with
  | nil => rfl
  | cons d ds ih =>
    have hd := digit_le (h d (List.mem_cons_self _ _))
    refine feedsAbove_cons .scanContinue (atStep .s1 ps) ?_ (by decide) hk
      (ih (fun x hx => h x (List.mem_cons_of_mem _ hx)))
    simp [Scanner.next, atStep, state1, hd]

theorem feeds_digits_dot0 {k : Nat} (ps : List ParseState) (hk : k ≤ ps.length) {ds : List Char}
    (h : ∀ d ∈ ds, IsDigit d) : FeedsAbove k (atStep .dot0 ps) ds (atStep .dot0 ps) := by
  induction ds with
  | nil => rfl
  | cons d ds ih =>
    have hd := digit_le (h d (List.mem_cons_self _ _))
    refine feedsAbove_cons .scanContinue (atStep .dot0 ps) ?_ (by decide) hk
      (ih (fun x hx => h x (List.mem_cons_of_mem _ hx)))
    simp [Scanner.next, atStep, stateDot0, hd]

theorem feeds_digits_e0 {k : Nat} (ps : List ParseState) (hk : k ≤ ps.length) {ds : List Char}
    (h : ∀ d ∈ ds, IsDigit d) : FeedsAbove k (atStep .e0 ps) ds (atStep .e0 ps) := by
  induction ds with
  | nil => rfl
  | cons d ds ih =>
    have hd := digit_le (h d (List.mem_cons_self _ _))
    refine feedsAbove_cons .scanContinue (atStep .e0 ps) ?_ (by decide) hk
      (ih (fun x hx => h x (List.mem_cons_of_mem _ hx)))
    simp [Scanner.next, atStep, stateE0, hd]

theorem feeds_int {k : Nat} (ps : List ParseState) (hk : k ≤ ps.length) {t : List Char}
    (h : IsInt t) :
    ∃ st, (st = .s0 ∨ st = .s1) ∧ FeedsAbove k (atStep .beginValue ps) t (atStep st ps) ∧
      FeedsAbove k (atStep .neg ps) t (atStep st ps) := by
  cases h with
  | zero =>
    refine ⟨.s0, Or.inl rfl, ?_, ?_⟩
    · exact feedsAbove_one .scanBeginLiteral _ rfl (by decide) hk
    · exact feedsAbove_one .scanContinue _ rfl (by decide) hk
  | nonzero c ds h1 h2 hds =>
    have hc : '1' ≤ c ∧ c ≤ '9' := by simp only [char_le_iff]; exact ⟨h1, h2⟩
    have hd := digit_ne (⟨by omega, h2⟩ : IsDigit c)
    have n0 : c ≠ '0' := by apply char_ne_of_toNat; simp; omega
    have n1 : c ≠ '\x7b' := by apply char_ne_of_toNat; simp; omega
    have n2 : c ≠ '[' := by apply char_ne_of_toNat; simp; omega
    have n3 : c ≠ '\x22' := by apply char_ne_of_toNat; simp; omega
    have n4 : c ≠ 't' := by apply char_ne_of_toNat; simp; omega
    have n5 : c ≠ 'f' := by apply char_ne_of_toNat; simp; omega
    have n6 : c ≠ 'n' := by apply char_ne_of_toNat; simp; omega
    refine ⟨.s1, Or.inr rfl, ?_, ?_⟩
    · refine feedsAbove_cons .scanBeginLiteral (atStep .s1 ps) ?_ (by decide) hk
        (feeds_digits_s1 ps hk hds)
      simp [Scanner.next, atStep, stateBeginValue, hd.2.2.2.2.2, hd.2.2.2.2.1, n0, n1, n2, n3, n4,
        n5, n6, hc]
    · refine feedsAbove_cons .scanContinue (atStep .s1 ps) ?_ (by decide) hk
        (feeds_digits_s1 ps hk hds)
      simp [Scanner.next, atStep, stateNeg, n0, hc]

theorem feeds_frac {k : Nat} (ps : List ParseState) (hk : k ≤ ps.length) {t : List Char}
    (h : IsFrac t) (st : Step) (hst : st = .s0 ∨ st = .s1) :
    ∃ st1, (st1 = .s0 ∨ st1 = .s1 ∨ st1 = .dot0) ∧
      FeedsAbove k (atStep st ps) t (atStep st1 ps) := by
  cases h with
  | none =>
    rcases hst with h | h <;> subst h
    · exact ⟨.s0, Or.inl rfl, rfl⟩
    · exact ⟨.s1, Or.inr (Or.inl rfl), rfl⟩
  | some d ds hd hds =>
    have hd1 := digit_le hd
    refine ⟨.dot0, Or.inr (Or.inr rfl), ?_⟩
    refine feedsAbove_cons .scanContinue (atStep .dot ps) ?_ (by decide) hk ?_
    · rcases hst with h | h <;> subst h <;> simp [Scanner.next, atStep, state0, state1]
    refine feedsAbove_cons .scanContinue (atStep .dot0 ps) ?_ (by decide) hk
      (feeds_digits_dot0 ps hk hds)
    simp [Scanner.next, atStep, stateDot, hd1]

theorem feeds_exp {k : Nat} (ps : List ParseState) (hk : k ≤ ps.length) {t : List Char}
    (h : IsExp t) (st : Step) (hst : st = .s0 ∨ st = .s1 ∨ st = .dot0) :
    ∃ st1, IsNumberEnd st1 ∧ FeedsAbove k (atStep st ps) t (atStep st1 ps) := by
  cases h with
  | none =>
    rcases hst with h | h | h <;> subst h
    · exact ⟨.s0, Or.inl rfl, rfl⟩
    · exact ⟨.s1, Or.inr (Or.inl rfl), rfl⟩
    · exact ⟨.dot0, Or.inr (Or.inr (Or.inl rfl)), rfl⟩
  | some e sign d ds he hsign hd hds =>
    have hd1 := digit_le hd
    have hd2 := digit_ne hd
    refine ⟨.e0, Or.inr (Or.inr (Or.inr rfl)), ?_⟩
    refine feedsAbove_cons .scanContinue (atStep .e ps) ?_ (by decide) hk ?_
    · rcases hst with h | h | h <;> subst h <;> rcases he with he | he <;> subst he <;>
        simp [Scanner.next, atStep, state0, state1, stateDot0, char_le_iff]
    rcases hsign with hs | hs | hs <;> subst hs
    · refine feedsAbove_cons .scanContinue (atStep .e0 ps) ?_ (by decide) hk
        (feeds_digits_e0 ps hk hds)
      simp [Scanner.next, atStep, stateE, stateESign, hd1, hd2]
    · refine feedsAbove_cons .scanContinue (atStep .eSign ps) rfl (by decide) hk ?_
      refine feedsAbove_cons .scanContinue (atStep .e0 ps) ?_ (by decide) hk
        (feeds_digits_e0 ps hk hds)
      simp [Scanner.next, atStep, stateESign, hd1]
    · refine feedsAbove_cons .scanContinue (atStep .eSign ps) rfl (by decide) hk ?_
      refine feedsAbove_cons .scanContinue (atStep .e0 ps) ?_ (by decide) hk
        (feeds_digits_e0 ps hk hds)
      simp [Scanner.next, atStep, stateESign, hd1]

theorem feeds_number {k : Nat} (ps : List ParseState) (hk : k ≤ ps.length) {t : List Char}
    (h : IsNumber t) :
    ∃ st, IsNumberEnd st ∧ FeedsAbove k (atStep .beginValue ps) t (atStep st ps) := by
  cases h with
  | mk minus int frac exp hminus hint hfrac hexp =>
    obtain ⟨st0, hst0, hf0, hf0n⟩ := feeds_int ps hk hint
    obtain ⟨st1, hst1, hf1⟩ := feeds_frac ps hk hfrac st0 hst0
    obtain ⟨st2, hst2, hf2⟩ := feeds_exp ps hk hexp st1 hst1
    refine ⟨st2, hst2, ?_⟩
    rcases hminus with hm | hm <;> subst hm
    · rw [List.nil_append]
      exact feedsAbove_append hf0 (feedsAbove_append hf1 hf2)
    · rw [List.singleton_append]
      exact feedsAbove_cons .scanBeginLiteral (atStep .neg ps) rfl (by decide) hk
        (feedsAbove_append hf0n (feedsAbove_append hf1 hf2))

theorem atStep_inString (ps : List ParseState) : atStep .inString ps = inStr false ps none := rfl

theorem feedsAbove_plain {k : Nat} {c : Char} (h0 : 0x20 ≤ c.toNat) (h1 : c ≠ '\x22')
    (h2 : c ≠ '\x5c') (ps : List ParseState) (hk : k ≤ ps.length) :
    FeedsAbove k (atStep .inString ps) [c] (atStep .inString ps) := by
  refine feedsAbove_one .scanContinue _ ?_ (by decide) hk
  have : ¬ c.toNat < 0x20 := by omega
  simp [Scanner.next, atStep, stateInString, h1, h2, this]

theorem feedsAbove_escape {k n : Nat} {t : List Char} (h : IsUnicodeEscape n t)
    (ps : List ParseState) (hk : k ≤ ps.length) :
    FeedsAbove k (atStep .inString ps) t (atStep .inString ps) := by
  obtain ⟨_, _, h1, h2, h3, h4, rfl, ⟨a, ha⟩, ⟨b, hb⟩, ⟨c, hc⟩, ⟨d, hd⟩⟩ := getu4_of_escape h []
  have fa := (hexDigit_facts ha).2.1
  have fb := (hexDigit_facts hb).2.1
  have fc := (hexDigit_facts hc).2.1
  have fd := (hexDigit_facts hd).2.1
  simp [FeedsAbove, Scanner.next, atStep, stateInString, stateInStringEsc, stateInStringEscHex,
    fa, fb, fc, fd, hk]

theorem feedsAbove_encodesChar {k : Nat} {c : Char} {t : List Char} (h : EncodesChar c t)
    (ps : List ParseState) (hk : k ≤ ps.length) :
    FeedsAbove k (atStep .inString ps) t (atStep .inString ps) := by
  cases h with
  | unescaped _ h0 h1 h2 => exact feedsAbove_plain h0 h1 h2 ps hk
  | unicode _ _ hu => exact feedsAbove_escape hu ps hk
  | surrogatePair _ hi lo _ hhi hlo =>
    exact feedsAbove_append (feedsAbove_escape hhi ps hk) (feedsAbove_escape hlo ps hk)
  | _ => simp [FeedsAbove, Scanner.next, atStep, stateInString, stateInStringEsc, hk]

theorem feedsAbove_encodes {k : Nat} {s t : List Char} (h : EncodesString s t)
    (ps : List ParseState) (hk : k ≤ ps.length) :
    FeedsAbove k (atStep .inString ps) t (atStep .inString ps) := by
  induction h with
  | nil => rfl
  | cons c s t ts hc _ ih => exact feedsAbove_append (feedsAbove_encodesChar hc ps hk) ih

/-- A quoted string: from a state that accepts an opening quote to the end of the value. -/
theorem feedsAbove_quoted {k : Nat} {s body : List Char} (h : EncodesString s body)
    (ps : List ParseState) (hk : k ≤ ps.length) (S : Scanner)
    (hS : S.next '\x22' = (.scanBeginLiteral, atStep .inString ps)) (rest : List Char)
    {S2 : Scanner} (hrest : FeedsAbove k (atStep .endValue ps) rest S2) :
    FeedsAbove k S ('\x22' :: (body ++ '\x22' :: rest)) S2 := by
  refine feedsAbove_cons _ _ hS (by decide) hk ?_
  refine feedsAbove_append (feedsAbove_encodes h ps hk) ?_
  exact feedsAbove_cons .scanContinue (atStep .endValue ps) rfl (by decide) hk hrest

/-! ### After a value -/

theorem afterValue_atStep {st : Step} (ps : List ParseState)
    (h : st = .endValue ∨ IsNumberEnd st) : AfterValue (atStep st ps) ps := by
  refine ⟨rfl, rfl, rfl, ?_⟩
  rcases h with h | h | h | h | h <;> simp [atStep, h]

theorem delim_cases {c : Char} (h : IsDelim c) :
    (isSpace c = true ∨ c = ',' ∨ c = ']' ∨ c = '\x7d') ∧
      c ≠ '.' ∧ c ≠ 'e' ∧ c ≠ 'E' ∧ ¬ ('0' ≤ c ∧ c ≤ '9') := by
  rcases h with h | h | h | h | h | h | h <;> subst h <;> decide

theorem after_delim {S : Scanner} {ps : List ParseState} (h : AfterValue S ps) (hps : ps ≠ [])
    {c : Char} (hc : IsDelim c) : S.next c = stateEndValue (atStep .endValue ps) c := by
  obtain ⟨h1, h2, h3, h4⟩ := h
  obtain ⟨_, d1, d2, d3, d4⟩ := delim_cases hc
  have hS : S = { atStep .endValue ps with step := S.step } := by
    cases S
    simp only [atStep] at h1 h2 h3 ⊢
    simp [h1, h2, h3]
  have hgoal : stateEndValue S c = stateEndValue (atStep .endValue ps) c := by
    rw [hS]
    exact stateEndValue_step _ _ _ hps
  rcases h4 with h | h | h | h | h <;>
    simp [Scanner.next, h, state0, state1, stateDot0, stateE0, d1, d2, d3, d4, hgoal]

theorem stable_atStep_endValue (p : ParseState) (ps : List ParseState) :
    ∀ c, isSpace c = true →
      (atStep .endValue (p :: ps)).next c = (.scanSkipSpace, atStep .endValue (p :: ps)) :=
  stable_endValue false p ps none

theorem isDelim_of_space {c : Char} (h : isSpace c = true) : IsDelim c := by
  simp only [isSpace, Bool.or_eq_true, decide_eq_true_eq] at h
  rcases h with ((h | h) | h) | h
  · exact Or.inl h
  · exact Or.inr (Or.inl h)
  · exact Or.inr (Or.inr (Or.inl h))
  · exact Or.inr (Or.inr (Or.inr (Or.inl h)))

theorem after_ws {k : Nat} {S : Scanner} {p : ParseState} {ps : List ParseState}
    (h : AfterValue S (p :: ps)) (hk : k ≤ (p :: ps).length) {w : List Char} (hw : IsWs w) :
    ∃ S1, FeedsAbove k S w S1 ∧ AfterValue S1 (p :: ps) := by
  cases w with
  | nil => exact ⟨S, rfl, h⟩
  | cons x xs =>
    have hx := isSpace_of_ws hw x (List.mem_cons_self _ _)
    have hxs : IsWs xs := fun y hy => hw y (List.mem_cons_of_mem _ hy)
    refine ⟨atStep .endValue (p :: ps), ?_, afterValue_atStep _ (Or.inl rfl)⟩
    have hn : S.next x = (.scanSkipSpace, atStep .endValue (p :: ps)) := by
      rw [after_delim h (by simp) (isDelim_of_space hx)]
      exact stable_atStep_endValue p ps x hx
    exact feedsAbove_cons _ _ hn (by decide) hk
      (feedsAbove_ws (stable_atStep_endValue p ps) hk hxs)

/-- After a value and whitespace, a delimiter is read by `stateEndValue`. -/
theorem after_ws_delim {k : Nat} {S : Scanner} {p : ParseState} {ps : List ParseState}
    (h : AfterValue S (p :: ps)) (hk : k ≤ (p :: ps).length) {w : List Char} (hw : IsWs w)
    {c : Char} (hc : IsDelim c) {op : Op} {S1 S2 : Scanner}
    (hn : stateEndValue (atStep .endValue (p :: ps)) c = (op, S1)) (hop : op ≠ .scanError)
    (hk1 : k ≤ S1.parseState.length) {rest : List Char} (hrest : FeedsAbove k S1 rest S2) :
    FeedsAbove k S (w ++ c :: rest) S2 := by
  obtain ⟨S0, hf, ha⟩ := after_ws h hk hw
  refine feedsAbove_append hf ?_
  refine feedsAbove_cons op S1 ?_ hop hk1 hrest
  rw [after_delim ha (by simp) hc, hn]

theorem int_head {t : List Char} (h : IsInt t) :
    ∃ c0 t1, t = c0 :: t1 ∧ IsDigit c0 := by
  cases h with
  | zero => exact ⟨'0', [], rfl, ⟨by decide, by decide⟩⟩
  | nonzero c ds h1 h2 _ => exact ⟨c, ds, rfl, ⟨by omega, h2⟩⟩

theorem number_head {t : List Char} (h : IsNumber t) :
    ∃ c0 t1, t = c0 :: t1 ∧ (c0 = '-' ∨ IsDigit c0) := by
  cases h with
  | mk minus int frac exp hminus hint _ _ =>
    obtain ⟨c0, t1, rfl, hc0⟩ := int_head hint
    rcases hminus with hm | hm <;> subst hm
    · exact ⟨c0, t1 ++ (frac ++ exp), rfl, Or.inr hc0⟩
    · exact ⟨'-', (c0 :: t1) ++ (frac ++ exp), rfl, Or.inl rfl⟩

theorem value_head {n : Nat} {t : List Char} (h : IsJson .value n t) :
    ∃ c0 t1, t = c0 :: t1 ∧ isSpace c0 = false ∧ c0 ≠ ']' := by
  cases h with
  | null => exact ⟨_, _, rfl, by decide, by decide⟩
  | true => exact ⟨_, _, rfl, by decide, by decide⟩
  | false => exact ⟨_, _, rfl, by decide, by decide⟩
  | number _ hn =>
    obtain ⟨c0, t1, rfl, hc0⟩ := number_head hn
    refine ⟨c0, t1, rfl, ?_, ?_⟩
    · rcases hc0 with h | h
      · subst h; decide
      · exact (digit_ne h).2.2.2.2.2
    · rcases hc0 with h | h
      · subst h; decide
      · apply char_ne_of_toNat
        have := h.2
        simp
        omega
  | string _ _ _ => exact ⟨_, _, rfl, by decide, by decide⟩
  | emptyArray _ _ => exact ⟨_, _, rfl, by decide, by decide⟩
  | array _ _ _ => exact ⟨_, _, rfl, by decide, by decide⟩
  | emptyObject _ _ => exact ⟨_, _, rfl, by decide, by decide⟩
  | object _ _ _ => exact ⟨_, _, rfl, by decide, by decide⟩

theorem stateBeginValue_step (s : Scanner) (x : Step) (c : Char) (hc : isSpace c = false) :
    stateBeginValue { s with step := x } c = stateBeginValue s c := by
  simp only [stateBeginValue, hc, Bool.false_eq_true, if_false, Scanner.pushParseState,
    Scanner.error]

theorem next_beginValueOrEmpty (ps : List ParseState) {c : Char} (hc : isSpace c = false)
    (hb : c ≠ ']') :
    (atStep .beginValueOrEmpty ps).next c = (atStep .beginValue ps).next c := by
  simp only [Scanner.next, atStep, stateBeginValueOrEmpty, hc, hb, Bool.false_eq_true, if_false]
  exact stateBeginValue_step (atStep .beginValue ps) .beginValueOrEmpty c hc

theorem feeds_value_from {k n : Nat} {t : List Char} (h : IsJson .value n t)
    (ps : List ParseState) (st : Step) (hst : st = .beginValue ∨ st = .beginValueOrEmpty)
    {S1 : Scanner} (hf : FeedsAbove k (atStep .beginValue ps) t S1) :
    FeedsAbove k (atStep st ps) t S1 := by
  rcases hst with hst | hst <;> subst hst
  · exact hf
  · obtain ⟨c0, t1, rfl, hc, hb⟩ := value_head h
    have := next_beginValueOrEmpty ps hc hb
    simp only [FeedsAbove] at hf ⊢
    rw [this]
    exact hf

theorem stable_atStep_beginValue (ps : List ParseState) :
    ∀ c, isSpace c = true →
      (atStep .beginValue ps).next c = (.scanSkipSpace, atStep .beginValue ps) :=
  stable_beginValue false ps none

theorem stable_atStep_beginValueOrEmpty (ps : List ParseState) :
    ∀ c, isSpace c = true →
      (atStep .beginValueOrEmpty ps).next c = (.scanSkipSpace, atStep .beginValueOrEmpty ps) := by
  intro c hc
  simp [Scanner.next, atStep, stateBeginValueOrEmpty, hc]

theorem stable_atStep_beginString (ps : List ParseState) :
    ∀ c, isSpace c = true →
      (atStep .beginString ps).next c = (.scanSkipSpace, atStep .beginString ps) := by
  intro c hc
  simp [Scanner.next, atStep, stateBeginString, hc]

theorem stable_atStep_beginStringOrEmpty (ps : List ParseState) :
    ∀ c, isSpace c = true →
      (atStep .beginStringOrEmpty ps).next c = (.scanSkipSpace, atStep .beginStringOrEmpty ps) :=
  stable_beginStringOrEmpty false ps none

theorem stable_value_start (ps : List ParseState) (st : Step)
    (hst : st = .beginValue ∨ st = .beginValueOrEmpty) :
    ∀ c, isSpace c = true → (atStep st ps).next c = (.scanSkipSpace, atStep st ps) := by
  rcases hst with h | h <;> subst h
  · exact stable_atStep_beginValue ps
  · exact stable_atStep_beginValueOrEmpty ps

theorem stable_key_start (ps : List ParseState) (st : Step)
    (hst : st = .beginString ∨ st = .beginStringOrEmpty) :
    ∀ c, isSpace c = true → (atStep st ps).next c = (.scanSkipSpace, atStep st ps) := by
  rcases hst with h | h <;> subst h
  · exact stable_atStep_beginString ps
  · exact stable_atStep_beginStringOrEmpty ps

theorem next_key_quote (ps : List ParseState) (st : Step)
    (hst : st = .beginString ∨ st = .beginStringOrEmpty) :
    (atStep st ps).next '\x22' = (.scanBeginLiteral, atStep .inString ps) := by
  rcases hst with h | h <;> subst h <;> rfl

theorem push_array (ps : List ParseState) (h : ps.length + 1 ≤ 10000) :
    (atStep .beginValue ps).next '[' =
      (.scanBeginArray, atStep .beginValueOrEmpty (.parseArrayValue :: ps)) := by
  simp [Scanner.next, atStep, stateBeginValue, Scanner.pushParseState, isSpace, maxNestingDepth, h]

theorem push_object (ps : List ParseState) (h : ps.length + 1 ≤ 10000) :
    (atStep .beginValue ps).next '\x7b' =
      (.scanBeginObject, atStep .beginStringOrEmpty (.parseObjectKey :: ps)) := by
  simp [Scanner.next, atStep, stateBeginValue, Scanner.pushParseState, isSpace, maxNestingDepth, h]

theorem close_array (ps : List ParseState) (hps : ps ≠ []) :
    stateEndValue (atStep .endValue (.parseArrayValue :: ps)) ']' =
      (.scanEndArray, atStep .endValue ps) := by
  simp [stateEndValue, atStep, Scanner.popParseState, isSpace, hps]

theorem close_object (ps : List ParseState) (hps : ps ≠ []) :
    stateEndValue (atStep .endValue (.parseObjectValue :: ps)) '\x7d' =
      (.scanEndObject, atStep .endValue ps) := by
  simp [stateEndValue, atStep, Scanner.popParseState, isSpace, hps]

theorem close_empty_array (ps : List ParseState) (hps : ps ≠ []) :
    (atStep .beginValueOrEmpty (.parseArrayValue :: ps)).next ']' =
      (.scanEndArray, atStep .endValue ps) := by
  simp [Scanner.next, stateBeginValueOrEmpty, stateEndValue, atStep, Scanner.popParseState, isSpace,
    hps]

theorem close_empty_object (ps : List ParseState) (hps : ps ≠ []) :
    (atStep .beginStringOrEmpty (.parseObjectKey :: ps)).next '\x7d' =
      (.scanEndObject, atStep .endValue ps) := by
  simp [Scanner.next, stateBeginStringOrEmpty, stateEndValue, atStep, Scanner.popParseState,
    isSpace, hps]

theorem next_comma_array (ps : List ParseState) :
    stateEndValue (atStep .endValue (.parseArrayValue :: ps)) ',' =
      (.scanArrayValue, atStep .beginValue (.parseArrayValue :: ps)) := by
  simp [stateEndValue, atStep, isSpace]

theorem next_comma_object (ps : List ParseState) :
    stateEndValue (atStep .endValue (.parseObjectValue :: ps)) ',' =
      (.scanObjectValue, atStep .beginString (.parseObjectKey :: ps)) := by
  simp [stateEndValue, atStep, isSpace]

theorem next_colon (ps : List ParseState) :
    (atStep .endValue (.parseObjectKey :: ps)).next ':' =
      (.scanObjectKey, atStep .beginValue (.parseObjectValue :: ps)) := by
  simp [Scanner.next, stateEndValue, atStep, isSpace]

/-- The part of a member up to its value: whitespace, the quoted name, whitespace, the
colon, whitespace. -/
theorem feeds_member_head {k : Nat} (ps : List ParseState) (hk : k ≤ ps.length + 1) (st : Step)
    (hst : st = .beginString ∨ st = .beginStringOrEmpty) {w1 name key w2 w3 : List Char}
    (h1 : IsWs w1) (hkey : EncodesString name key) (h2 : IsWs w2) (h3 : IsWs w3)
    {rest : List Char} {S2 : Scanner}
    (hrest : FeedsAbove k (atStep .beginValue (.parseObjectValue :: ps)) rest S2) :
    FeedsAbove k (atStep st (.parseObjectKey :: ps))
      (w1 ++ '\x22' :: (key ++ '\x22' :: (w2 ++ ':' :: (w3 ++ rest)))) S2 := by
  have hk1 : k ≤ (ParseState.parseObjectKey :: ps).length := hk
  have hk2 : k ≤ (ParseState.parseObjectValue :: ps).length := hk
  refine feedsAbove_append (feedsAbove_ws (stable_key_start _ st hst) hk1 h1) ?_
  refine feedsAbove_quoted hkey _ hk1 _ (next_key_quote _ st hst) _ ?_
  refine feedsAbove_append (feedsAbove_ws (stable_atStep_endValue _ _) hk1 h2) ?_
  refine feedsAbove_cons _ _ (next_colon ps) (by decide) hk2 ?_
  exact feedsAbove_append (feedsAbove_ws (stable_atStep_beginValue _) hk2 h3) hrest

theorem scan_ok {kind : Kind} {n : Nat} {t : List Char} (h : IsJson kind n t) :
    ScanOK kind n t := by
  induction h with
  | null =>
    intro ps _ _
    refine ⟨atStep .endValue ps, ?_, afterValue_atStep _ (Or.inl rfl)⟩
    simp [FeedsAbove, Scanner.next, stateBeginValue, stateLit, atStep, isSpace]
  | true =>
    intro ps _ _
    refine ⟨atStep .endValue ps, ?_, afterValue_atStep _ (Or.inl rfl)⟩
    simp [FeedsAbove, Scanner.next, stateBeginValue, stateLit, atStep, isSpace]
  | false =>
    intro ps _ _
    refine ⟨atStep .endValue ps, ?_, afterValue_atStep _ (Or.inl rfl)⟩
    simp [FeedsAbove, Scanner.next, stateBeginValue, stateLit, atStep, isSpace]
  | number t hn =>
    intro ps _ _
    obtain ⟨st, hst, hf⟩ := feeds_number ps (Nat.le_refl _) hn
    exact ⟨atStep st ps, hf, afterValue_atStep _ (Or.inr hst)⟩
  | string s body hs =>
    intro ps _ _
    refine ⟨atStep .endValue ps, ?_, afterValue_atStep _ (Or.inl rfl)⟩
    exact feedsAbove_quoted hs ps (Nat.le_refl _) (atStep .beginValue ps) rfl [] rfl
  | emptyArray w hw =>
    intro ps hps hn
    refine ⟨atStep .endValue ps, ?_, afterValue_atStep _ (Or.inl rfl)⟩
    refine feedsAbove_cons _ _ (push_array ps (by omega)) (by decide) (by simp [atStep]) ?_
    refine feedsAbove_append
      (feedsAbove_ws (stable_atStep_beginValueOrEmpty _) (by simp [atStep]) hw) ?_
    exact feedsAbove_one _ _ (close_empty_array ps hps) (by decide) (Nat.le_refl _)
  | array n u _ ih =>
    intro ps hps hn
    refine ⟨atStep .endValue ps, ?_, afterValue_atStep _ (Or.inl rfl)⟩
    obtain ⟨S1, hf, ha⟩ := ih ps (by omega) .beginValueOrEmpty (Or.inr rfl)
    refine feedsAbove_cons _ _ (push_array ps (by omega)) (by decide) (by simp [atStep]) ?_
    refine feedsAbove_append (feedsAbove_mono (Nat.le_succ _) hf) ?_
    refine feedsAbove_one .scanEndArray (atStep .endValue ps) ?_ (by decide) (Nat.le_refl _)
    rw [after_delim ha (by simp) (Or.inr (Or.inr (Or.inr (Or.inr (Or.inr (Or.inl rfl)))))),
      close_array ps hps]
  | emptyObject w hw =>
    intro ps hps hn
    refine ⟨atStep .endValue ps, ?_, afterValue_atStep _ (Or.inl rfl)⟩
    refine feedsAbove_cons _ _ (push_object ps (by omega)) (by decide) (by simp [atStep]) ?_
    refine feedsAbove_append
      (feedsAbove_ws (stable_atStep_beginStringOrEmpty _) (by simp [atStep]) hw) ?_
    exact feedsAbove_one _ _ (close_empty_object ps hps) (by decide) (Nat.le_refl _)
  | object n u _ ih =>
    intro ps hps hn
    refine ⟨atStep .endValue ps, ?_, afterValue_atStep _ (Or.inl rfl)⟩
    obtain ⟨S1, hf, ha⟩ := ih ps (by omega) .beginStringOrEmpty (Or.inr rfl)
    refine feedsAbove_cons _ _ (push_object ps (by omega)) (by decide) (by simp [atStep]) ?_
    refine feedsAbove_append (feedsAbove_mono (Nat.le_succ _) hf) ?_
    refine feedsAbove_one .scanEndObject (atStep .endValue ps) ?_ (by decide) (Nat.le_refl _)
    rw [after_delim ha (by simp) (Or.inr (Or.inr (Or.inr (Or.inr (Or.inr (Or.inr rfl)))))),
      close_object ps hps]
  | element w1 n t w2 h1 hv h2 ih =>
    intro ps hn st hst
    obtain ⟨S1, hf, ha⟩ := ih (.parseArrayValue :: ps) (by simp) (by simpa using by omega)
    obtain ⟨S2, hf2, ha2⟩ := after_ws (k := ps.length + 1) ha (Nat.le_refl _) h2
    refine ⟨S2, ?_, ha2⟩
    have hk : ps.length + 1 ≤ (atStep st (.parseArrayValue :: ps)).parseState.length :=
      Nat.le_refl _
    refine feedsAbove_append (feedsAbove_ws (stable_value_start _ st hst) hk h1) ?_
    exact feedsAbove_append (feeds_value_from hv _ st hst hf) hf2
  | elements w1 n t w2 m u h1 hv h2 _ ih ihu =>
    intro ps hn st hst
    obtain ⟨S1, hf, ha⟩ := ih (.parseArrayValue :: ps) (by simp)
      (by simp only [List.length_cons]; omega)
    obtain ⟨S3, hf3, ha3⟩ := ihu ps (by omega) .beginValue (Or.inl rfl)
    refine ⟨S3, ?_, ha3⟩
    have hk : ps.length + 1 ≤ (atStep st (.parseArrayValue :: ps)).parseState.length :=
      Nat.le_refl _
    refine feedsAbove_append (feedsAbove_ws (stable_value_start _ st hst) hk h1) ?_
    refine feedsAbove_append (feeds_value_from hv _ st hst hf) ?_
    exact after_ws_delim ha (Nat.le_refl _) h2 (Or.inr (Or.inr (Or.inr (Or.inr (Or.inl rfl)))))
      (next_comma_array ps) (by decide) (Nat.le_refl _) hf3
  | member w1 name key w2 w3 n t w4 h1 hkey h2 h3 hv h4 ih =>
    intro ps hn st hst
    obtain ⟨S1, hf, ha⟩ := ih (.parseObjectValue :: ps) (by simp)
      (by simp only [List.length_cons]; omega)
    obtain ⟨S2, hf2, ha2⟩ := after_ws (k := ps.length + 1) ha (Nat.le_refl _) h4
    exact ⟨S2, feeds_member_head ps (Nat.le_refl _) st hst h1 hkey h2 h3
      (feedsAbove_append hf hf2), ha2⟩
  | members w1 name key w2 w3 n t w4 m u h1 hkey h2 h3 hv h4 _ ih ihu =>
    intro ps hn st hst
    obtain ⟨S1, hf, ha⟩ := ih (.parseObjectValue :: ps) (by simp)
      (by simp only [List.length_cons]; omega)
    obtain ⟨S3, hf3, ha3⟩ := ihu ps (by omega) .beginString (Or.inl rfl)
    refine ⟨S3, feeds_member_head ps (Nat.le_refl _) st hst h1 hkey h2 h3 ?_, ha3⟩
    refine feedsAbove_append hf ?_
    exact after_ws_delim ha (Nat.le_refl _) h4 (Or.inr (Or.inr (Or.inr (Or.inr (Or.inl rfl)))))
      (next_comma_object ps) (by decide) (Nat.le_refl _) hf3

/-! ## Skipping a JSON value in the decoder -/

theorem skipLoop_feeds {depth : Nat} {S S1 : Scanner} {t : List Char}
    (h : FeedsAbove depth S t S1) (rest : List Char) :
    skipLoop depth S (t ++ rest) = skipLoop depth S1 rest := by
  induction t generalizing S with
  | nil => cases h; rfl
  | cons c cs ih =>
    obtain ⟨_, hk, hf⟩ := h
    rw [List.cons_append, skipLoop, if_neg (by omega)]
    exact ih hf

theorem skipLoop_close {depth : Nat} {S S2 : Scanner} {c : Char} {op : Op}
    (h : S.next c = (op, S2)) (hlen : S2.parseState.length < depth) (rest : List Char) :
    skipLoop depth S (c :: rest) = some (c, rest, op, S2) := by
  rw [skipLoop, h]
  simp [hlen]

theorem rescanNumber_append {l : List Char} (hl : ∀ c ∈ l, isNumberByte c = true) {x : Char}
    (hx : isNumberByte x = false) (xs : List Char) :
    rescanNumber (l ++ x :: xs) = (l, x :: xs) := by
  induction l with
  | nil => simp [rescanNumber, hx]
  | cons c cs ih =>
    have hc := hl c (List.mem_cons_self _ _)
    rw [List.cons_append, rescanNumber, if_pos hc, ih (fun y hy => hl y (List.mem_cons_of_mem _ hy))]

theorem digit_numberByte {d : Char} (h : IsDigit d) : isNumberByte d = true := by
  have := digit_le h
  simp [isNumberByte, this]

theorem int_bytes {t : List Char} (h : IsInt t) : ∀ c ∈ t, isNumberByte c = true := by
  cases h with
  | zero => intro c hc; simp at hc; subst hc; decide
  | nonzero c0 ds h1 h2 hds =>
    intro c hc
    rcases List.mem_cons.mp hc with h | h
    · subst h; exact digit_numberByte ⟨by omega, h2⟩
    · exact digit_numberByte (hds c h)

theorem frac_bytes {t : List Char} (h : IsFrac t) : ∀ c ∈ t, isNumberByte c = true := by
  cases h with
  | none => intro c hc; cases hc
  | some d ds hd hds =>
    intro c hc
    rcases List.mem_cons.mp hc with h | h
    · subst h; decide
    · rcases List.mem_cons.mp h with h | h
      · subst h; exact digit_numberByte hd
      · exact digit_numberByte (hds c h)

theorem exp_bytes {t : List Char} (h : IsExp t) : ∀ c ∈ t, isNumberByte c = true := by
  cases h with
  | none => intro c hc; cases hc
  | some e sign d ds he hsign hd hds =>
    intro c hc
    rcases List.mem_cons.mp hc with h | h
    · subst h
      rcases he with he | he <;> subst he <;> decide
    · rcases List.mem_append.mp h with h | h
      · rcases hsign with hs | hs | hs <;> subst hs
        · cases h
        · simp at h; subst h; decide
        · simp at h; subst h; decide
      · rcases List.mem_cons.mp h with h | h
        · subst h; exact digit_numberByte hd
        · exact digit_numberByte (hds c h)

theorem number_bytes {t : List Char} (h : IsNumber t) : ∀ c ∈ t, isNumberByte c = true := by
  cases h with
  | mk minus int frac exp hminus hint hfrac hexp =>
    intro c hc
    rcases List.mem_append.mp hc with h | h
    · rcases hminus with hm | hm <;> subst hm
      · cases h
      · simp at h; subst h; decide
    · rcases List.mem_append.mp h with h | h
      · exact int_bytes hint c h
      · rcases List.mem_append.mp h with h | h
        · exact frac_bytes hfrac c h
        · exact exp_bytes hexp c h

theorem delim_not_numberByte {x : Char} (h : IsDelim x) : isNumberByte x = false := by
  rcases h with h | h | h | h | h | h | h <;> subst h <;> decide

theorem delim_not_quote {x : Char} (h : IsDelim x) : x ≠ '\x22' := by
  rcases h with h | h | h | h | h | h | h <;> subst h <;> decide

theorem stateEndValue_atStep (st : Step) (ps : List ParseState) (hps : ps ≠ []) (c : Char) :
    stateEndValue (atStep st ps) c = stateEndValue (atStep .endValue ps) c :=
  stateEndValue_step (atStep .endValue ps) st c hps

theorem number_start (ps : List ParseState) {c0 : Char} (h : c0 = '-' ∨ IsDigit c0) :
    ∃ st, (atStep .beginValue ps).next c0 = (.scanBeginLiteral, atStep st ps) ∧
      (('0' ≤ c0 ∧ c0 ≤ '9') ∨ c0 = '-') ∧ c0 ≠ '\x22' := by
  rcases h with h | h
  · subst h
    exact ⟨.neg, rfl, Or.inr rfl, by decide⟩
  · have hd := digit_le h
    have hq : c0 ≠ '\x22' := by
      apply char_ne_of_toNat
      have := h.1
      simp
      omega
    by_cases h0 : c0 = '0'
    · subst h0
      exact ⟨.s0, rfl, Or.inl hd, hq⟩
    · refine ⟨.s1, ?_, Or.inl hd, hq⟩
      have n0 := digit_ne h
      have hc1 : '1' ≤ c0 ∧ c0 ≤ '9' := by
        simp only [char_le_iff]
        have := h.1
        have hne : c0.toNat ≠ 48 := fun hcon => h0 (Char.ext (UInt32.ext hcon))
        exact ⟨by simp; omega, h.2⟩
      have n1 : c0 ≠ '\x7b' := by apply char_ne_of_toNat; have := h.2; simp; omega
      have n2 : c0 ≠ '[' := by apply char_ne_of_toNat; have := h.2; simp; omega
      have n4 : c0 ≠ 't' := by apply char_ne_of_toNat; have := h.2; simp; omega
      have n5 : c0 ≠ 'f' := by apply char_ne_of_toNat; have := h.2; simp; omega
      have n6 : c0 ≠ 'n' := by apply char_ne_of_toNat; have := h.2; simp; omega
      simp [Scanner.next, atStep, stateBeginValue, n0.2.2.2.2.2, n0.2.2.2.2.1, h0, n1, n2, hq, n4,
        n5, n6, hc1]

theorem valueLeaf_literal {ps : List ParseState} (hps : ps ≠ []) (c0 : Char) (st : Step)
    (hnext : (atStep .beginValue ps).next c0 = (.scanBeginLiteral, atStep st ps))
    {t1 : List Char} {x : Char} {xs : List Char} (se : Option String) (cm : String)
    (hlit : ∀ d : DecodeState, d.last = c0 → d.rest = t1 ++ x :: xs →
      d.rescanLiteral.2 = endValueAt d (x :: xs)) :
    (atValue ps c0 (t1 ++ x :: xs) se cm).valueLeaf .invalid = .ok (afterValueAt ps x xs se cm) := by
  simp only [atValue, hnext, DecodeState.valueLeaf, if_true]
  rw [hlit _ rfl rfl]
  simp only [endValueAt, afterValueAt, stateEndValue_atStep st ps hps]

theorem rescanLiteral_of {d : DecodeState} {r : List Char × List Char} {x : Char} {xs : List Char}
    (hr : (if d.last = '\x22' then rescanString d.rest
      else if ('0' ≤ d.last ∧ d.last ≤ '9') ∨ d.last = '-' then rescanNumber d.rest
      else if d.last = 't' then d.rest.splitAt 3
      else if d.last = 'f' then d.rest.splitAt 4
      else if d.last = 'n' then d.rest.splitAt 3
      else ([], d.rest)) = r) (h2 : r.2 = x :: xs) :
    d.rescanLiteral.2 = endValueAt d (x :: xs) := by
  unfold DecodeState.rescanLiteral
  simp only [hr, h2, endValueAt]

theorem valueLeaf_bracket {ps : List ParseState} {c0 : Char} {op0 : Op} {S0 : Scanner}
    (hop : op0 = .scanBeginArray ∨ op0 = .scanBeginObject)
    (hnext : (atStep .beginValue ps).next c0 = (op0, S0))
    (hlen : S0.parseState.length = ps.length + 1) {inner : List Char} {S1 : Scanner}
    (hf : FeedsAbove (ps.length + 1) S0 inner S1) {close : Char} (opc : Op)
    (hclose : S1.next close = (opc, atStep .endValue ps)) (x : Char) (xs : List Char)
    (se : Option String) (cm : String) :
    (atValue ps c0 ((inner ++ [close]) ++ x :: xs) se cm).valueLeaf .invalid =
      .ok (afterValueAt ps x xs se cm) := by
  have hskip : skipLoop (ps.length + 1) S0 (inner ++ close :: x :: xs) =
      some (close, x :: xs, opc, atStep .endValue ps) := by
    rw [skipLoop_feeds hf]
    exact skipLoop_close hclose (by simp [atStep]) _
  have hnx : (atStep .endValue ps).next x = stateEndValue (atStep .endValue ps) x := by
    simp [Scanner.next, atStep]
  rcases hop with h | h <;> subst h <;>
    simp [atValue, hnext, DecodeState.valueLeaf, DecodeState.skip, hlen, hskip, Except.map,
      DecodeState.scanNext, afterValueAt, hnx]

theorem valueLeaf_invalid {n : Nat} {t : List Char} (h : IsJson .value n t)
    {ps : List ParseState} (hps : ps ≠ []) (hn : ps.length + n ≤ 10000) {x : Char}
    (hx : IsDelim x) (xs : List Char) (se : Option String) (cm : String) :
    ∃ c0 t1, t = c0 :: t1 ∧ isSpace c0 = false ∧
      (atValue ps c0 (t1 ++ x :: xs) se cm).valueLeaf .invalid =
        .ok (afterValueAt ps x xs se cm) := by
  cases h with
  | null =>
    refine ⟨'n', ['u', 'l', 'l'], rfl, by decide, ?_⟩
    exact valueLeaf_literal hps 'n' .n rfl se cm
      (fun d hl hr => rescanLiteral_of (r := (['u', 'l', 'l'], x :: xs))
        (by simp [hl, hr, List.splitAt_eq]) rfl)
  | true =>
    refine ⟨'t', ['r', 'u', 'e'], rfl, by decide, ?_⟩
    exact valueLeaf_literal hps 't' .t rfl se cm
      (fun d hl hr => rescanLiteral_of (r := (['r', 'u', 'e'], x :: xs))
        (by simp [hl, hr, List.splitAt_eq]) rfl)
  | false =>
    refine ⟨'f', ['a', 'l', 's', 'e'], rfl, by decide, ?_⟩
    exact valueLeaf_literal hps 'f' .f rfl se cm
      (fun d hl hr => rescanLiteral_of (r := (['a', 'l', 's', 'e'], x :: xs))
        (by simp [hl, hr, List.splitAt_eq]) rfl)
  | number _ hnum =>
    obtain ⟨c0, t1, rfl, hc0⟩ := number_head hnum
    obtain ⟨st, hnext, hfirst, hq⟩ := number_start ps hc0
    have hsp : isSpace c0 = false := by
      rcases hc0 with h | h
      · subst h; decide
      · exact (digit_ne h).2.2.2.2.2
    refine ⟨c0, t1, rfl, hsp, ?_⟩
    have hbytes : ∀ c ∈ t1, isNumberByte c = true :=
      fun c hc => number_bytes hnum c (List.mem_cons_of_mem _ hc)
    exact valueLeaf_literal hps c0 st hnext se cm
      (fun d hl hr => rescanLiteral_of (r := (t1, x :: xs))
        (by simp only [hl, hr, hq, if_false, hfirst, if_true,
              rescanNumber_append hbytes (delim_not_numberByte hx)]) rfl)
  | string s body hs =>
    refine ⟨'\x22', body ++ ['\x22'], rfl, by decide, ?_⟩
    exact valueLeaf_literal hps '\x22' .inString rfl se cm
      (fun d hl hr => rescanLiteral_of (r := (body ++ ['\x22'], x :: xs))
        (by simp only [hl, hr, if_true, List.append_assoc, List.singleton_append,
              rescanString_encodes hs]) rfl)
  | emptyArray w hw =>
    refine ⟨'[', w ++ [']'], rfl, by decide, ?_⟩
    exact valueLeaf_bracket (Or.inl rfl) (push_array ps (by omega)) (by simp [atStep])
      (feedsAbove_ws (stable_atStep_beginValueOrEmpty _) (by simp [atStep]) hw) .scanEndArray
      (close_empty_array ps hps) x xs se cm
  | array m u hu =>
    refine ⟨'[', u ++ [']'], rfl, by decide, ?_⟩
    obtain ⟨S1, hf, ha⟩ := scan_ok hu ps (by omega) .beginValueOrEmpty (Or.inr rfl)
    refine valueLeaf_bracket (Or.inl rfl) (push_array ps (by omega)) (by simp [atStep]) hf
      .scanEndArray ?_ x xs se cm
    rw [after_delim ha (by simp) (Or.inr (Or.inr (Or.inr (Or.inr (Or.inr (Or.inl rfl)))))),
      close_array ps hps]
  | emptyObject w hw =>
    refine ⟨'\x7b', w ++ ['\x7d'], rfl, by decide, ?_⟩
    exact valueLeaf_bracket (Or.inr rfl) (push_object ps (by omega)) (by simp [atStep])
      (feedsAbove_ws (stable_atStep_beginStringOrEmpty _) (by simp [atStep]) hw) .scanEndObject
      (close_empty_object ps hps) x xs se cm
  | object m u hu =>
    refine ⟨'\x7b', u ++ ['\x7d'], rfl, by decide, ?_⟩
    obtain ⟨S1, hf, ha⟩ := scan_ok hu ps (by omega) .beginStringOrEmpty (Or.inr rfl)
    refine valueLeaf_bracket (Or.inr rfl) (push_object ps (by omega)) (by simp [atStep]) hf
      .scanEndObject ?_ x xs se cm
    rw [after_delim ha (by simp) (Or.inr (Or.inr (Or.inr (Or.inr (Or.inr (Or.inr rfl)))))),
      close_object ps hps]

/-! ## The object loop on an object without the field -/

theorem beginValue_not_skip (ps : List ParseState) {c : Char} (hc : isSpace c = false) :
    ((atStep .beginValue ps).next c).1 ≠ .scanSkipSpace := by
  simp only [Scanner.next, atStep, stateBeginValue, hc, Bool.false_eq_true, if_false,
    Scanner.pushParseState, Scanner.error]
  (repeat' split) <;> simp

theorem ws_delim_head {w : List Char} (hw : IsWs w) {c : Char} (hc : IsDelim c)
    (rest : List Char) : ∃ x xs, w ++ c :: rest = x :: xs ∧ IsDelim x := by
  cases w with
  | nil => exact ⟨c, rest, rfl, hc⟩
  | cons y ys =>
    exact ⟨y, ys ++ c :: rest, rfl, isDelim_of_space (isSpace_of_ws hw y (List.mem_cons_self _ _))⟩

/-- A member value that is skipped, and the whitespace after it, up to the delimiter. -/
theorem value_then_skip {n : Nat} {t : List Char} (h : IsJson .value n t)
    {ps : List ParseState} (hps : ps ≠ []) (hn : ps.length + n ≤ 10000) {w4 : List Char}
    (h4 : IsWs w4) {c : Char} (hc : IsDelim c) (hsp : isSpace c = false) (rest : List Char)
    (se : Option String) (cm : String) :
    ∃ c0 t1, t = c0 :: t1 ∧ isSpace c0 = false ∧
      ∃ d4, (atValue ps c0 (t1 ++ (w4 ++ c :: rest)) se cm).valueLeaf .invalid = .ok d4 ∧
        (if d4.opcode = .scanSkipSpace then d4.scanWhile .scanSkipSpace else d4) =
          afterValueAt ps c rest se cm := by
  obtain ⟨x, xs, hxs, hx⟩ := ws_delim_head h4 hc rest
  obtain ⟨c0, t1, ht, hc0, hleaf⟩ := valueLeaf_invalid h hps hn hx xs se cm
  refine ⟨c0, t1, ht, hc0, afterValueAt ps x xs se cm, ?_, ?_⟩
  · rw [hxs]; exact hleaf
  · have e1 : afterValueAt ps x xs se cm =
        endValueAt ⟨c0, [], .scanContinue, atStep .endValue ps, se, cm⟩ (w4 ++ c :: rest) := by
      rw [hxs]; rfl
    rw [e1, skip_after_value _ (by simpa [atStep] using hps) h4 hsp]
    rfl

theorem objectLoop_member {n : Nat} {t : List Char} (hv : IsJson .value n t) (hn : n < 10000)
    {w1 name key w2 w3 w4 : List Char} (h1 : IsWs w1) (hkey : EncodesString name key)
    (hlook : lookupField name = .invalid) (h2 : IsWs w2) (h3 : IsWs w3) (h4 : IsWs w4)
    {c : Char} (hc : IsDelim c) (hsp : isSpace c = false) (rest : List Char)
    (st : Step) (hst : st = .beginString ∨ st = .beginStringOrEmpty)
    (fuel : Nat) (last : Char) (op : Op) (se : Option String) (cm : String) :
    DecodeState.objectLoop (fuel + 1)
        ⟨last, w1 ++ '\x22' :: (key ++ '\x22' :: (w2 ++ ':' :: (w3 ++ (t ++ (w4 ++ c :: rest))))),
          op, atStep st [.parseObjectKey], se, cm⟩ =
      if (afterValueAt [.parseObjectValue] c rest se cm).opcode = .scanEndObject then
        .ok (afterValueAt [.parseObjectValue] c rest se cm)
      else if (afterValueAt [.parseObjectValue] c rest se cm).opcode ≠ .scanObjectValue then
        .error (.panic phasePanicMsg)
      else DecodeState.objectLoop fuel (afterValueAt [.parseObjectValue] c rest se cm) := by
  obtain ⟨c0, t1, rfl, hc0, d4, hleaf, hskip⟩ :=
    value_then_skip hv (show [ParseState.parseObjectValue] ≠ [] by simp)
      (by simpa using by omega) h4 hc hsp
      rest se cm
  rw [DecodeState.objectLoop]
  simp only
  rw [scanWhile_ws (stable_key_start _ st hst) h1 '\x22'
    (by rw [next_key_quote _ st hst]; decide)]
  simp only [next_key_quote _ st hst]
  rw [rescanLiteral_string rfl (rescanString_encodes hkey _)]
  simp only [unquoteBytes_quoted, unquoteLoop_encodes hkey, hlook]
  rw [skip_after_value _ (by simp [atStep]) h2 (by decide)]
  have hcolon : stateEndValue (atStep .inString [.parseObjectKey]) ':' =
      (.scanObjectKey, atStep .beginValue [.parseObjectValue]) := rfl
  simp only [hcolon]
  rw [List.cons_append, scanWhile_ws (stable_atStep_beginValue _) h3 c0
    (beginValue_not_skip _ hc0)]
  have hat : (⟨c0, t1 ++ (w4 ++ c :: rest),
      ((atStep .beginValue [.parseObjectValue]).next c0).1,
      ((atStep .beginValue [.parseObjectValue]).next c0).2, se, cm⟩ : DecodeState) =
      atValue [.parseObjectValue] c0 (t1 ++ (w4 ++ c :: rest)) se cm := rfl
  rw [hat, hleaf]
  simp only [hskip]
  simp

theorem afterValue_close (rest : List Char) (se : Option String) (cm : String) :
    afterValueAt [.parseObjectValue] '\x7d' rest se cm =
      ⟨'\x7d', rest, .scanEndObject, ⟨.endTop, true, [], none⟩, se, cm⟩ := rfl

theorem afterValue_comma (rest : List Char) (se : Option String) (cm : String) :
    afterValueAt [.parseObjectValue] ',' rest se cm =
      ⟨',', rest, .scanObjectValue, atStep .beginString [.parseObjectKey], se, cm⟩ := rfl

theorem objectLoop_without {P : List Char → Prop}
    (hP : ∀ name, ¬ P name → lookupField name = .invalid) {n : Nat} {body : List Char}
    (h : IsMembersWithout P n body) (hn : n < 10000) :
    ∀ (fuel : Nat) (st : Step), (st = .beginString ∨ st = .beginStringOrEmpty) →
      ∀ (last : Char) (op : Op) (se : Option String) (cm : String) (w5 : List Char),
        body.length < fuel →
        DecodeState.objectLoop fuel
            ⟨last, body ++ '\x7d' :: w5, op, atStep st [.parseObjectKey], se, cm⟩ =
          .ok ⟨'\x7d', w5, .scanEndObject, ⟨.endTop, true, [], none⟩, se, cm⟩ := by
  induction h with
  | member w1 name key w2 w3 n t w4 h1 hkey hname h2 h3 hv h4 =>
    intro fuel st hst last op se cm w5 hfuel
    obtain ⟨f, rfl⟩ : ∃ f, fuel = f + 1 := ⟨fuel - 1, by omega⟩
    have := objectLoop_member hv hn h1 hkey (hP name hname) h2 h3 h4
      (Or.inr (Or.inr (Or.inr (Or.inr (Or.inr (Or.inr rfl)))))) (by decide) w5 st hst f last op
      se cm
    simp only [List.append_assoc, List.cons_append] at this ⊢
    rw [this, afterValue_close]
    simp
  | members w1 name key w2 w3 n t w4 m u h1 hkey hname h2 h3 hv h4 _ ih =>
    intro fuel st hst last op se cm w5 hfuel
    obtain ⟨f, rfl⟩ : ∃ f, fuel = f + 1 := ⟨fuel - 1, by omega⟩
    have := objectLoop_member hv (by omega) h1 hkey (hP name hname) h2 h3 h4
      (Or.inr (Or.inr (Or.inr (Or.inr (Or.inl rfl))))) (by decide) (u ++ '\x7d' :: w5) st hst f
      last op se cm
    simp only [List.append_assoc, List.cons_append] at this ⊢
    rw [this, afterValue_comma]
    simp only [reduceCtorEq, if_false, ne_eq, not_true_eq_false]
    apply ih (by omega) f .beginString (Or.inl rfl)
    simp only [List.length_append, List.length_cons] at hfuel
    omega

theorem members_forget {P : List Char → Prop} {n : Nat} {body : List Char}
    (h : IsMembersWithout P n body) : IsJson .members n body := by
  induction h with
  | member w1 name key w2 w3 n t w4 h1 hkey _ h2 h3 hv h4 =>
    exact .member w1 name key w2 w3 n t w4 h1 hkey h2 h3 hv h4
  | members w1 name key w2 w3 n t w4 m u h1 hkey _ h2 h3 hv h4 _ ih =>
    exact .members w1 name key w2 w3 n t w4 m u h1 hkey h2 h3 hv h4 ih

/-! ### The field lookup and names that differ from the field name -/

theorem foldRune_cases (x : Char) :
    (97 ≤ x.toNat ∧ x.toNat ≤ 122 ∧ (foldRune x).toNat = x.toNat - 32) ∨
    (x = Char.ofNat 0x17f ∧ foldRune x = 'S') ∨
    (x = Char.ofNat 0x212a ∧ foldRune x = 'K') ∨
    (¬ (97 ≤ x.toNat ∧ x.toNat ≤ 122) ∧ foldRune x = x) := by
  by_cases h : 'a' ≤ x ∧ x ≤ 'z'
  · left
    have h1 : 97 ≤ x.toNat ∧ x.toNat ≤ 122 := by
      simp only [char_le_iff] at h
      exact h
    refine ⟨h1.1, h1.2, ?_⟩
    simp only [foldRune, h, and_self, if_true]
    have hv : (x.toNat - 32).isValidChar := Or.inl (by omega)
    rw [Char.ofNat, dif_pos hv]
    rfl
  · have h1 : ¬ (97 ≤ x.toNat ∧ x.toNat ≤ 122) := by
      simp only [char_le_iff] at h
      exact h
    by_cases h2 : x = Char.ofNat 0x17f
    · right; left
      exact ⟨h2, by simp [foldRune, h, h2]⟩
    · by_cases h3 : x = Char.ofNat 0x212a
      · right; right; left
        exact ⟨h3, by simp [foldRune, h, h2, h3]⟩
      · right; right; right
        exact ⟨h1, by simp [foldRune, h, h2, h3]⟩

theorem same_letter_of_fold {x y : Char} (hy : (97 ≤ y.toNat ∧ y.toNat ≤ 122) ∨ y = '_')
    (h : foldRune x = foldRune y) :
    x = y ∨ (97 ≤ y.toNat ∧ y.toNat ≤ 122 ∧ x.toNat + 32 = y.toNat) ∨
      (y = 's' ∧ x = Char.ofNat 0x17f) ∨ (y = 'k' ∧ x = Char.ofNat 0x212a) := by
  have hfy : (foldRune y).toNat = if y = '_' then 95 else y.toNat - 32 := by
    rcases hy with hy | hy
    · have hne : y ≠ '_' := by
        apply char_ne_of_toNat
        simp
        omega
      rw [if_neg hne]
      rcases foldRune_cases y with c | c | c | c
      · exact c.2.2
      · rw [c.1] at hy; simp at hy
      · rw [c.1] at hy; simp at hy
      · exact absurd hy c.1
    · subst hy; decide
  have hx := congrArg Char.toNat h
  rw [hfy] at hx
  rcases foldRune_cases x with c | c | c | c
  · rw [c.2.2] at hx
    left
    rcases hy with hy | hy
    · have hne : y ≠ '_' := by
        apply char_ne_of_toNat
        simp
        omega
      rw [if_neg hne] at hx
      exact Char.ext (UInt32.ext (by
        show x.toNat = y.toNat
        omega))
    · rw [if_pos hy] at hx
      omega
  · rw [c.2] at hx
    rcases hy with hy | hy
    · have hne : y ≠ '_' := by
        apply char_ne_of_toNat
        simp
        omega
      rw [if_neg hne] at hx
      right; right; left
      refine ⟨Char.ext (UInt32.ext ?_), c.1⟩
      show y.toNat = 115
      have : ('S' : Char).toNat = 83 := rfl
      omega
    · rw [if_pos hy] at hx
      cases hx
  · rw [c.2] at hx
    rcases hy with hy | hy
    · have hne : y ≠ '_' := by
        apply char_ne_of_toNat
        simp
        omega
      rw [if_neg hne] at hx
      right; right; right
      refine ⟨Char.ext (UInt32.ext ?_), c.1⟩
      show y.toNat = 107
      have : ('K' : Char).toNat = 75 := rfl
      omega
    · rw [if_pos hy] at hx
      cases hx
  · rw [c.2] at hx
    rcases hy with hy | hy
    · have hne : y ≠ '_' := by
        apply char_ne_of_toNat
        simp
        omega
      rw [if_neg hne] at hx
      right; left
      exact ⟨hy.1, hy.2, by omega⟩
    · rw [if_pos hy] at hx
      left
      rw [hy]
      exact Char.ext (UInt32.ext hx)

theorem same_name_of_fold (field : List Char)
    (hfield : ∀ y ∈ field, (97 ≤ y.toNat ∧ y.toNat ≤ 122) ∨ y = '_') :
    ∀ name : List Char, foldName name = foldName field → SameNameUpToCase name field := by
  induction field with
  | nil =>
    intro name h
    cases name with
    | nil => exact List.Forall₂.nil
    | cons x xs => simp [foldName] at h
  | cons y ys ih =>
    intro name h
    cases name with
    | nil => simp [foldName] at h
    | cons x xs =>
      simp only [foldName, List.map_cons, List.cons.injEq] at h
      exact List.Forall₂.cons (same_letter_of_fold (hfield y (List.mem_cons_self _ _)) h.1)
        (ih (fun z hz => hfield z (List.mem_cons_of_mem _ hz)) xs h.2)

theorem lookupField_of_not_same (name : List Char)
    (h : ¬ SameNameUpToCase name "commit_message".data) : lookupField name = .invalid := by
  have hfold : foldName name ≠ foldName fieldName :=
    fun hcon => h (same_name_of_fold fieldName (by decide) name hcon)
  have hne : name ≠ fieldName := fun hcon => hfold (by rw [hcon])
  simp [lookupField, hne, hfold]

theorem checkValid_without {payload : String} (h : IsObjectWithoutCommitMessage payload) :
    checkValid payload.toList = none := by
  obtain ⟨w0, body, w5, n, h0, h5, hn, hbody, hp⟩ := h
  have hfeed : Feeds Scanner.reset payload.data ⟨.endTop, true, [], none⟩ := by
    rw [hp]
    refine feeds_append (feeds_ws stable_reset h0) ?_
    refine feeds_cons .scanBeginObject (atStep .beginStringOrEmpty [.parseObjectKey])
      rfl (by decide) ?_
    rcases hbody with hw | hm
    · refine feeds_append (feeds_ws (stable_atStep_beginStringOrEmpty _) hw) ?_
      exact feeds_cons .scanEndObject ⟨.endTop, true, [], none⟩ rfl (by decide) (feeds_wsTop h5 _)
    · obtain ⟨S1, hf, ha⟩ := scan_ok (members_forget hm) [] (by simpa using by omega)
        .beginStringOrEmpty (Or.inr rfl)
      refine feeds_append (feedsAbove_feeds hf) ?_
      refine feeds_cons .scanEndObject ⟨.endTop, true, [], none⟩ ?_ (by decide)
        (feeds_wsTop h5 _)
      rw [after_delim ha (by simp) (Or.inr (Or.inr (Or.inr (Or.inr (Or.inr (Or.inr rfl))))))]
      rfl
  have := checkValidLoop_feeds hfeed []
  rw [List.append_nil] at this
  rw [checkValid, String.toList, this]
  rfl

theorem decode_without {payload : String} (h : IsObjectWithoutCommitMessage payload)
    (v0 : String) :
    ∃ d, (DecodeState.start payload.data v0).value = .ok d ∧ d.commitMessage = v0 ∧
      d.savedError = none := by
  obtain ⟨w0, body, w5, n, h0, h5, hn, hbody, hp⟩ := h
  have hstart : DecodeState.start payload.data v0 =
      ⟨'\x7b', body ++ '\x7d' :: w5, .scanBeginObject,
        atStep .beginStringOrEmpty [.parseObjectKey], none, v0⟩ := by
    unfold DecodeState.start
    rw [hp, scanWhile_ws stable_reset h0 '\x7b' (by decide)]
    rfl
  have hloop : DecodeState.objectLoop ((body ++ '\x7d' :: w5).length + 1)
      ⟨'\x7b', body ++ '\x7d' :: w5, .scanBeginObject,
        atStep .beginStringOrEmpty [.parseObjectKey], none, v0⟩ =
      .ok ⟨'\x7d', w5, .scanEndObject, ⟨.endTop, true, [], none⟩, none, v0⟩ := by
    rcases hbody with hw | hm
    · rw [DecodeState.objectLoop]
      simp only
      rw [scanWhile_ws (stable_atStep_beginStringOrEmpty _) hw '\x7d' (by decide)]
      have hclose : (atStep .beginStringOrEmpty [.parseObjectKey]).next '\x7d' =
          (.scanEndObject, ⟨.endTop, true, [], none⟩) := rfl
      simp [hclose]
    · exact objectLoop_without lookupField_of_not_same hm hn _ .beginStringOrEmpty (Or.inr rfl)
        _ _ _ _ _ (by simp only [List.length_append, List.length_cons]; omega)
  rw [hstart]
  unfold DecodeState.value
  simp only
  rw [hloop]
  refine ⟨_, rfl, ?_, ?_⟩
  · rw [(scanNext_fields _).1]
  · rw [(scanNext_fields _).2]

end GoJson

namespace Cmd

open JsonText

theorem Unmarshal_without {payload : String} (h : IsObjectWithoutCommitMessage payload)
    (v : CommitMessageResponse) : Unmarshal payload v = .ok (v, none) := by
  obtain ⟨d, hd, hm, he⟩ := GoJson.decode_without h v.CommitMessage
  have hd1 : (GoJson.DecodeState.start payload.toList v.CommitMessage).value = .ok d := hd
  simp only [Unmarshal, GoJson.checkValid_without h, hd1, hm, he]

/-! ## The tail of the run -/

theorem decodeAndPrint_no_calls (chat : ChatCompletion) :
    ∀ e ∈ (decodeAndPrint chat).1, e.isSubprocess = false ∧ e.isNetwork = false := by
  intro e he
  unfold decodeAndPrint at he
  split at he
  · simp at he
  · split at he <;> simp at he <;> subst he <;> simp [Effect.isSubprocess, Effect.isNetwork]

/-- C1: when `OPENAI_API_KEY` reads as the empty string, the run writes the
missing-credential diagnostic to stderr and exits with code 1 at once: its trace is the
read of the variable followed by that one write, so it holds no subprocess call and no
network call. -/
theorem missing_credential_fails_first (w : World) (h : w.getenv "OPENAI_API_KEY" = "") :
    (Run w).2 = .exit 1 ∧
    (Run w).1 = [.getenv "OPENAI_API_KEY", .stderr "OPENAI_API_KEY is not set\n"] ∧
    ((Run w).1.filter Effect.isSubprocess).length = 0 ∧
    ((Run w).1.filter Effect.isNetwork).length = 0 := by
  have hr : Run w =
      ([.getenv "OPENAI_API_KEY", .stderr "OPENAI_API_KEY is not set\n"], .exit 1) := by
    simp only [Run, h, if_true]
    rfl
  rw [hr]
  simp [Effect.isSubprocess, Effect.isNetwork]

theorem missing_credential_fails_first_witness :
    (Run (exampleWorld "" (.ok "d") (.ok "l") (.ok "b") (.ok ⟨[]⟩))).2 = .exit 1 ∧
    (Run (exampleWorld "" (.ok "d") (.ok "l") (.ok "b") (.ok ⟨[]⟩))).1 =
      [.getenv "OPENAI_API_KEY", .stderr "OPENAI_API_KEY is not set\n"] ∧
    ((Run (exampleWorld "" (.ok "d") (.ok "l") (.ok "b") (.ok ⟨[]⟩))).1.filter
      Effect.isSubprocess).length = 0 ∧
    ((Run (exampleWorld "" (.ok "d") (.ok "l") (.ok "b") (.ok ⟨[]⟩))).1.filter
      Effect.isNetwork).length = 0 :=
  missing_credential_fails_first _ (by decide)

theorem Fprintln_pair (a b : String) : Fprintln [a, b] = a ++ " " ++ b ++ "\n" := rfl

theorem Fprintln_single (a : String) : Fprintln [a] = a ++ "\n" := rfl

theorem Run_of_queries (w : World) (diff log branch : String)
    (hkey : w.getenv "OPENAI_API_KEY" ≠ "")
    (hd : w.output ["git", "diff", "HEAD"] = .ok diff)
    (hl : w.output ["git", "log", "--pretty=format:%s", "-n", "30"] = .ok log)
    (hb : w.output ["git", "branch", "--show-current"] = .ok branch) :
    Run w =
      match w.chatCompletionsNew (w.getenv "OPENAI_API_KEY")
          (completionParams w branch diff log) with
      | .error err =>
        (requestTrace w (w.getenv "OPENAI_API_KEY") diff log branch ++
          [.stderr ("Failed to create chat completion: " ++ err ++ "\n")], .exit 1)
      | .ok chat =>
        (requestTrace w (w.getenv "OPENAI_API_KEY") diff log branch ++ (decodeAndPrint chat).1,
          (decodeAndPrint chat).2) := by
  simp only [Run, hkey, if_false, run_git_diff, run_git_log, run_git_branch, hd, hl, hb]
  cases w.chatCompletionsNew (w.getenv "OPENAI_API_KEY") (completionParams w branch diff log) <;>
    simp [requestTrace, Fprintln_pair]

theorem requests_append (t u : List Effect) : requests (t ++ u) = requests t ++ requests u := by
  simp [requests, List.filterMap_append]

theorem stdoutWrites_append (t u : List Effect) :
    stdoutWrites (t ++ u) = stdoutWrites t ++ stdoutWrites u := by
  simp [stdoutWrites, List.filterMap_append]

theorem requests_decodeAndPrint (chat : ChatCompletion) : requests (decodeAndPrint chat).1 = [] := by
  unfold decodeAndPrint
  split
  · rfl
  · split <;> rfl

/-- C2: in every run that reaches the completion request (credential set, the three git
queries answering `diff`, `log` and `branch`), the one request sent carries exactly four
messages, in this order: the fixed system message, then user messages with the bodies
`"Current branch: " ++ branch`, `"Git diff:\n" ++ diff` and `"Git log:\n" ++ log`.  For
branch `main`, diff `diff --git a/x b/x\n...` and log `feat: add x\nfix: y` the three user
bodies are `Current branch: main`, `Git diff:\ndiff --git a/x b/x\n...` and
`Git log:\nfeat: add x\nfix: y`. -/
theorem composed_messages (w : World) (diff log branch : String)
    (hkey : w.getenv "OPENAI_API_KEY" ≠ "")
    (hd : w.output ["git", "diff", "HEAD"] = .ok diff)
    (hl : w.output ["git", "log", "--pretty=format:%s", "-n", "30"] = .ok log)
    (hb : w.output ["git", "branch", "--show-current"] = .ok branch) :
    (requests (Run w).1).map (fun p => p.Messages) =
      [[ { role := .system, content := systemPrompt },
         { role := .user, content := "Current branch: " ++ branch },
         { role := .user, content := "Git diff:\n" ++ diff },
         { role := .user, content := "Git log:\n" ++ log } ]] ∧
    (∀ p ∈ requests (Run w).1, p.Messages.length = 4) ∧
    messages "main" "diff --git a/x b/x\n..." "feat: add x\nfix: y" =
      [ { role := .system, content := systemPrompt },
        { role := .user, content := "Current branch: main" },
        { role := .user, content := "Git diff:\ndiff --git a/x b/x\n..." },
        { role := .user, content := "Git log:\nfeat: add x\nfix: y" } ] := by
  have hreq : requests (Run w).1 = [completionParams w branch diff log] := by
    rw [Run_of_queries w diff log branch hkey hd hl hb]
    cases w.chatCompletionsNew (w.getenv "OPENAI_API_KEY") (completionParams w branch diff log)
    · simp [requests, requestTrace]
    · simp only [requests_append, requests_decodeAndPrint]
      simp [requests, requestTrace]
  refine ⟨?_, ?_, ?_⟩
  · rw [hreq]
    simp [completionParams, messages, SystemMessage, UserMessage]
  · intro p hp
    rw [hreq] at hp
    simp at hp
    subst hp
    simp [completionParams, messages]
  · simp [messages, SystemMessage, UserMessage]

theorem composed_messages_witness :
    (requests (Run (exampleWorld "sk-test" (.ok "diff --git a/x b/x\n...")
        (.ok "feat: add x\nfix: y") (.ok "main") (.error "no network"))).1).map
        (fun p => p.Messages) =
      [[ { role := .system, content := systemPrompt },
         { role := .user, content := "Current branch: " ++ "main" },
         { role := .user, content := "Git diff:\n" ++ "diff --git a/x b/x\n..." },
         { role := .user, content := "Git log:\n" ++ "feat: add x\nfix: y" } ]] :=
  (composed_messages (exampleWorld "sk-test" (.ok "diff --git a/x b/x\n...")
    (.ok "feat: add x\nfix: y") (.ok "main") (.error "no network"))
    "diff --git a/x b/x\n..." "feat: add x\nfix: y" "main"
    (by decide) rfl rfl rfl).1

/-- C6 (the defect): when the endpoint returns, without error, a completion whose list of
choices is empty, `chat.Choices[0]` is out of range: the run panics, it neither yields a
text nor reports the completion failure with exit code 1. -/
theorem empty_choices_panics :
    (Run (exampleWorld "sk-test" (.ok "d") (.ok "l") (.ok "b") (.ok { Choices := [] }))).2 =
      .panic "runtime error: index out of range [0] with length 0" ∧
    stderrWrites
      (Run (exampleWorld "sk-test" (.ok "d") (.ok "l") (.ok "b") (.ok { Choices := [] }))).1 = [] ∧
    (Run (exampleWorld "sk-test" (.ok "d") (.ok "l") (.ok "b")
      (.ok { Choices := [] }))).2.exitCode = 2 := by
  decide

theorem stageTag_append (head tail : String) (h : 19 ≤ head.data.length) :
    stageTag (head ++ tail) = head.data.take 19 := by
  simp only [stageTag, String.data_append]
  exact List.take_append_of_le_length h

theorem ne_of_stageTag {a b : String} (h : stageTag a ≠ stageTag b) : a ≠ b :=
  fun hab => h (congrArg stageTag hab)

theorem diagnostics_distinct (e1 e2 e3 e4 e5 : String) :
    List.Pairwise (fun a b => a ≠ b)
      [ "OPENAI_API_KEY is not set\n",
        "Failed to run git diff: " ++ e1 ++ "\n",
        "Failed to run git log: " ++ e2 ++ "\n",
        "Failed to run git branch: " ++ e3 ++ "\n",
        "Failed to create chat completion: " ++ e4 ++ "\n",
        "Failed to unmarshal commit message response: " ++ e5 ++ "\n" ] := by
  have t0 : stageTag "OPENAI_API_KEY is not set\n" = "OPENAI_API_KEY is n".data := by decide
  have t1 : stageTag ("Failed to run git diff: " ++ e1 ++ "\n") = "Failed to run git d".data := by
    rw [String.append_assoc, stageTag_append _ _ (by decide)]; decide
  have t2 : stageTag ("Failed to run git log: " ++ e2 ++ "\n") = "Failed to run git l".data := by
    rw [String.append_assoc, stageTag_append _ _ (by decide)]; decide
  have t3 : stageTag ("Failed to run git branch: " ++ e3 ++ "\n") = "Failed to run git b".data := by
    rw [String.append_assoc, stageTag_append _ _ (by decide)]; decide
  have t4 : stageTag ("Failed to create chat completion: " ++ e4 ++ "\n") =
      "Failed to create ch".data := by
    rw [String.append_assoc, stageTag_append _ _ (by decide)]; decide
  have t5 : stageTag ("Failed to unmarshal commit message response: " ++ e5 ++ "\n") =
      "Failed to unmarshal".data := by
    rw [String.append_assoc, stageTag_append _ _ (by decide)]; decide
  simp only [List.pairwise_cons, List.mem_cons, List.mem_singleton, List.not_mem_nil,
    forall_eq_or_imp, forall_eq, false_implies, implies_true, List.Pairwise.nil, and_true]
  refine ⟨⟨?_, ?_, ?_, ?_, ?_⟩, ⟨?_, ?_, ?_, ?_⟩, ⟨?_, ?_, ?_⟩, ⟨?_, ?_⟩, ?_⟩ <;>
    apply ne_of_stageTag <;> simp only [t0, t1, t2, t3, t4, t5] <;> decide

theorem stage_failure_is_fatal_aux (w : World) :
    (w.getenv "OPENAI_API_KEY" = "" →
      Run w = ([.getenv "OPENAI_API_KEY", .stderr "OPENAI_API_KEY is not set\n"], .exit 1)) ∧
    (∀ err, w.getenv "OPENAI_API_KEY" ≠ "" →
      w.output ["git", "diff", "HEAD"] = .error err →
      Run w = ([.getenv "OPENAI_API_KEY", .subprocess ["git", "diff", "HEAD"],
        .stderr ("Failed to run git diff: " ++ err ++ "\n")], .exit 1)) ∧
    (∀ diff err, w.getenv "OPENAI_API_KEY" ≠ "" →
      w.output ["git", "diff", "HEAD"] = .ok diff →
      w.output ["git", "log", "--pretty=format:%s", "-n", "30"] = .error err →
      Run w = ([.getenv "OPENAI_API_KEY", .subprocess ["git", "diff", "HEAD"],
        .subprocess ["git", "log", "--pretty=format:%s", "-n", "30"],
        .stderr ("Failed to run git log: " ++ err ++ "\n")], .exit 1)) ∧
    (∀ diff log err, w.getenv "OPENAI_API_KEY" ≠ "" →
      w.output ["git", "diff", "HEAD"] = .ok diff →
      w.output ["git", "log", "--pretty=format:%s", "-n", "30"] = .ok log →
      w.output ["git", "branch", "--show-current"] = .error err →
      Run w = ([.getenv "OPENAI_API_KEY", .subprocess ["git", "diff", "HEAD"],
        .subprocess ["git", "log", "--pretty=format:%s", "-n", "30"],
        .subprocess ["git", "branch", "--show-current"],
        .stderr ("Failed to run git branch: " ++ err ++ "\n")], .exit 1)) ∧
    (∀ diff log branch err, w.getenv "OPENAI_API_KEY" ≠ "" →
      w.output ["git", "diff", "HEAD"] = .ok diff →
      w.output ["git", "log", "--pretty=format:%s", "-n", "30"] = .ok log →
      w.output ["git", "branch", "--show-current"] = .ok branch →
      w.chatCompletionsNew (w.getenv "OPENAI_API_KEY") (completionParams w branch diff log) =
        .error err →
      Run w = (requestTrace w (w.getenv "OPENAI_API_KEY") diff log branch ++
        [.stderr ("Failed to create chat completion: " ++ err ++ "\n")], .exit 1)) ∧
    (∀ diff log branch choice others v err, w.getenv "OPENAI_API_KEY" ≠ "" →
      w.output ["git", "diff", "HEAD"] = .ok diff →
      w.output ["git", "log", "--pretty=format:%s", "-n", "30"] = .ok log →
      w.output ["git", "branch", "--show-current"] = .ok branch →
      w.chatCompletionsNew (w.getenv "OPENAI_API_KEY") (completionParams w branch diff log) =
        .ok { Choices := choice :: others } →
      Unmarshal choice.Content { CommitMessage := "" } = .ok (v, some err) →
      Run w = (requestTrace w (w.getenv "OPENAI_API_KEY") diff log branch ++
        [.stderr ("Failed to unmarshal commit message response: " ++ err ++ "\n")], .exit 1)) ∧
    (∀ e1 e2 e3 e4 e5 : String, List.Pairwise (fun a b => a ≠ b)
      [ "OPENAI_API_KEY is not set\n",
        "Failed to run git diff: " ++ e1 ++ "\n",
        "Failed to run git log: " ++ e2 ++ "\n",
        "Failed to run git branch: " ++ e3 ++ "\n",
        "Failed to create chat completion: " ++ e4 ++ "\n",
        "Failed to unmarshal commit message response: " ++ e5 ++ "\n" ]) := by
  refine ⟨?_, ?_, ?_, ?_, ?_, ?_, diagnostics_distinct⟩
  · intro h
    simp only [Run, h, if_true]
    rfl
  · intro err hkey hd
    simp [Run, hkey, run_git_diff, hd, Fprintln_pair]
  · intro diff err hkey hd hl
    simp [Run, hkey, run_git_diff, run_git_log, hd, hl, Fprintln_pair]
  · intro diff log err hkey hd hl hb
    simp [Run, hkey, run_git_diff, run_git_log, run_git_branch, hd, hl, hb, Fprintln_pair]
  · intro diff log branch err hkey hd hl hb hc
    rw [Run_of_queries w diff log branch hkey hd hl hb, hc]
  · intro diff log branch choice others v err hkey hd hl hb hc hu
    rw [Run_of_queries w diff log branch hkey hd hl hb, hc]
    simp [decodeAndPrint, hu, Fprintln_pair]

/-- C8: a run that does not end by returning (in particular every run that exits with
code 1) has written nothing to standard output.  Whenever something is written to standard
output, every stage has succeeded, the write is the last effect of the run, and its text
is the decoded commit message followed by a newline. -/
theorem no_stdout_on_failure (w : World) :
    ((Run w).2 = .exit 1 → stdoutWrites (Run w).1 = []) ∧
    ((Run w).2 ≠ .returned → stdoutWrites (Run w).1 = []) ∧
    (∀ text, Effect.stdout text ∈ (Run w).1 →
      (Run w).2 = .returned ∧
      ∃ diff log branch choice others v,
        w.getenv "OPENAI_API_KEY" ≠ "" ∧
        w.output ["git", "diff", "HEAD"] = .ok diff ∧
        w.output ["git", "log", "--pretty=format:%s", "-n", "30"] = .ok log ∧
        w.output ["git", "branch", "--show-current"] = .ok branch ∧
        w.chatCompletionsNew (w.getenv "OPENAI_API_KEY") (completionParams w branch diff log) =
          .ok { Choices := choice :: others } ∧
        Unmarshal choice.Content { CommitMessage := "" } = .ok (v, none) ∧
        text = v.CommitMessage ++ "\n" ∧
        (Run w).1 = requestTrace w (w.getenv "OPENAI_API_KEY") diff log branch ++
          [.stdout text]) := by
  have key : ∀ text, Effect.stdout text ∈ (Run w).1 →
      (Run w).2 = .returned ∧
      ∃ diff log branch choice others v,
        w.getenv "OPENAI_API_KEY" ≠ "" ∧
        w.output ["git", "diff", "HEAD"] = .ok diff ∧
        w.output ["git", "log", "--pretty=format:%s", "-n", "30"] = .ok log ∧
        w.output ["git", "branch", "--show-current"] = .ok branch ∧
        w.chatCompletionsNew (w.getenv "OPENAI_API_KEY") (completionParams w branch diff log) =
          .ok { Choices := choice :: others } ∧
        Unmarshal choice.Content { CommitMessage := "" } = .ok (v, none) ∧
        text = v.CommitMessage ++ "\n" ∧
        (Run w).1 = requestTrace w (w.getenv "OPENAI_API_KEY") diff log branch ++
          [.stdout text] := by
    intro text hmem
    by_cases hkey : w.getenv "OPENAI_API_KEY" = ""
    · rw [(stage_failure_is_fatal_aux w).1 hkey] at hmem
      simp at hmem
    cases hd : w.output ["git", "diff", "HEAD"] with
    | error err =>
      rw [(stage_failure_is_fatal_aux w).2.1 err hkey hd] at hmem
      simp at hmem
    | ok diff =>
    cases hl : w.output ["git", "log", "--pretty=format:%s", "-n", "30"] with
    | error err =>
      rw [(stage_failure_is_fatal_aux w).2.2.1 diff err hkey hd hl] at hmem
      simp at hmem
    | ok log =>
    cases hb : w.output ["git", "branch", "--show-current"] with
    | error err =>
      rw [(stage_failure_is_fatal_aux w).2.2.2.1 diff log err hkey hd hl hb] at hmem
      simp at hmem
    | ok branch =>
    have hrun := Run_of_queries w diff log branch hkey hd hl hb
    cases hc : w.chatCompletionsNew (w.getenv "OPENAI_API_KEY")
        (completionParams w branch diff log) with
    | error err =>
      rw [hrun, hc] at hmem
      simp [requestTrace] at hmem
    | ok chat =>
      rw [hc] at hrun
      dsimp only at hrun
      obtain ⟨choices⟩ := chat
      cases choices with
      | nil =>
        rw [hrun] at hmem
        simp [requestTrace, decodeAndPrint] at hmem
      | cons choice others =>
        cases hu : Unmarshal choice.Content { CommitMessage := "" } with
        | error a =>
          rw [hrun] at hmem
          cases a <;> simp [requestTrace, decodeAndPrint, hu] at hmem
        | ok r =>
          obtain ⟨v, oerr⟩ := r
          cases oerr with
          | some err =>
            rw [hrun] at hmem
            simp [requestTrace, decodeAndPrint, hu] at hmem
          | none =>
            have h1 : (decodeAndPrint { Choices := choice :: others }) =
                ([.stdout (v.CommitMessage ++ "\n")], .returned) := by
              simp [decodeAndPrint, hu, Fprintln_single]
            rw [h1] at hrun
            rw [hrun] at hmem
            have htext : text = v.CommitMessage ++ "\n" := by
              simpa [requestTrace] using hmem
            refine ⟨by rw [hrun], diff, log, branch, choice, others, v, hkey, rfl, rfl, rfl,
              hc, hu, htext, ?_⟩
            rw [hrun, htext]
  have none_of : (Run w).2 ≠ .returned → stdoutWrites (Run w).1 = [] := by
    intro hne
    by_contra hcon
    obtain ⟨text, ht⟩ := List.exists_mem_of_ne_nil _ hcon
    simp only [stdoutWrites, List.mem_filterMap] at ht
    obtain ⟨e, he, hsome⟩ := ht
    cases e <;> simp at hsome
    subst hsome
    exact hne (key _ he).1
  refine ⟨fun h => none_of (by rw [h]; simp), none_of, key⟩

theorem encodesString_plain (s : List Char)
    (h : ∀ c ∈ s, 0x20 ≤ c.toNat ∧ c ≠ '\x22' ∧ c ≠ '\x5c') : EncodesString s s := by
  induction s with
  | nil => exact .nil
  | cons c cs ih =>
    have hc := h c (List.mem_cons_self _ _)
    exact .cons c cs [c] cs (.unescaped c hc.1 hc.2.1 hc.2.2)
      (ih (fun x hx => h x (List.mem_cons_of_mem _ hx)))

theorem isWs_nil : IsWs [] := fun _ h => absurd h (List.not_mem_nil _)

theorem isWs_space : IsWs [' '] := by
  intro c hc
  simp at hc
  exact Or.inl hc

/-- A payload with whitespace around the tokens and escapes inside the string. -/
theorem escaped_isCommitMessageObject :
    IsCommitMessageObject
      " \x7b\x22commit_message\x22 : \x22say \x5c\x22hi\x5c\x22\x5cn\x5cu00e9\x22\x7d"
      "say \x22hi\x22\né" := by
  refine ⟨[' '], [], [' '], [' '], [], [], "say \x5c\x22hi\x5c\x22\x5cn\x5cu00e9".data,
    isWs_space, isWs_nil, isWs_space, isWs_space, isWs_nil, isWs_nil, ?_, rfl⟩
  refine .cons 's' _ ['s'] _ (.unescaped _ (by decide) (by decide) (by decide)) ?_
  refine .cons 'a' _ ['a'] _ (.unescaped _ (by decide) (by decide) (by decide)) ?_
  refine .cons 'y' _ ['y'] _ (.unescaped _ (by decide) (by decide) (by decide)) ?_
  refine .cons ' ' _ [' '] _ (.unescaped _ (by decide) (by decide) (by decide)) ?_
  refine .cons '\x22' _ ['\x5c', '\x22'] _ .quotationMark ?_
  refine .cons 'h' _ ['h'] _ (.unescaped _ (by decide) (by decide) (by decide)) ?_
  refine .cons 'i' _ ['i'] _ (.unescaped _ (by decide) (by decide) (by decide)) ?_
  refine .cons '\x22' _ ['\x5c', '\x22'] _ .quotationMark ?_
  refine .cons '\n' _ ['\x5c', 'n'] _ .lineFeed ?_
  refine .cons 'é' _ ['\x5c', 'u', '0', '0', 'e', '9'] _ (.unicode _ _ ?_) .nil
  exact .mk '0' '0' 'e' '9' 0 0 14 9 (Or.inl (by decide)) (Or.inl (by decide))
    (Or.inr (Or.inl (by decide))) (Or.inl (by decide))

/-- C3: when the payload is a JSON object whose only member is `"commit_message"` with a
string value denoting `s` (any whitespace around the tokens, any JSON escapes inside the
string), `json.Unmarshal` returns no error and leaves `s`, unchanged, in `CommitMessage`. -/
theorem decoder_returns_message (payload s : String) (v : CommitMessageResponse)
    (h : IsCommitMessageObject payload s) :
    Unmarshal payload v = .ok ({ CommitMessage := s }, none) := by
  have hvalid : GoJson.checkValid payload.toList = none :=
    GoJson.checkValid_commitMessageObject h
  obtain ⟨d, hd, hm, he⟩ := GoJson.decode_commitMessageObject h v.CommitMessage
  have hd1 : (GoJson.DecodeState.start payload.toList v.CommitMessage).value = .ok d := hd
  simp only [Unmarshal, hvalid, hd1, hm, he]

theorem decoder_returns_message_witness :
    Unmarshal " \x7b\x22commit_message\x22 : \x22say \x5c\x22hi\x5c\x22\x5cn\x5cu00e9\x22\x7d"
      { CommitMessage := "" } = .ok ({ CommitMessage := "say \x22hi\x22\né" }, none) :=
  decoder_returns_message _ _ _ escaped_isCommitMessageObject

/-- C4 (counterexample): the payload `\x7b\x7d` has no `commit_message` member, yet the decoder
reports no error: the run writes nothing to stderr, prints an empty line and returns. -/
theorem empty_object_is_accepted :
    Unmarshal "\x7b\x7d" { CommitMessage := "" } = .ok ({ CommitMessage := "" }, none) ∧
    (Run (exampleWorld "sk-test" (.ok "D") (.ok "L") (.ok "B")
      (.ok { Choices := [{ Content := "\x7b\x7d" }] }))).2 = .returned ∧
    stderrWrites (Run (exampleWorld "sk-test" (.ok "D") (.ok "L") (.ok "B")
      (.ok { Choices := [{ Content := "\x7b\x7d" }] }))).1 = [] ∧
    stdoutWrites (Run (exampleWorld "sk-test" (.ok "D") (.ok "L") (.ok "B")
      (.ok { Choices := [{ Content := "\x7b\x7d" }] }))).1 = ["\n"] :=
  ⟨rfl, by decide, by decide, by decide⟩

/-- An object with one member, named `type`: no member is named `commit_message`. -/
theorem other_member_isObjectWithout :
    IsObjectWithoutCommitMessage " \x7b\x22type\x22: \x22fix\x22\x7d" := by
  have hname : ¬ SameNameUpToCase "type".data "commit_message".data := by
    intro h
    have := List.Forall₂.length_eq h
    simp at this
  have hm : IsMembersWithout (fun name => SameNameUpToCase name "commit_message".data) 0
      ([] ++ '\x22' :: ("type".data ++ '\x22' :: ([] ++ ':' :: ([' '] ++
        (('\x22' :: ("fix".data ++ ['\x22'])) ++ []))))) :=
    .member [] "type".data "type".data [] [' '] 0 _ [] isWs_nil
      (encodesString_plain _ (by decide)) hname isWs_nil isWs_space
      (.string "fix".data "fix".data (encodesString_plain _ (by decide))) isWs_nil
  exact ⟨[' '], _, [], 0, isWs_space, isWs_nil, by decide, Or.inr hm, rfl⟩

/-- C4 (amended): when the first choice of the completion is a JSON object (brackets
nested at most 10000 deep) none of whose members is named `commit_message` up to letter
case, `\x7b\x7d` included, the decoder does not fail: `json.Unmarshal` returns no error and leaves
`CommitMessage` empty, and the run writes nothing to stderr, prints an empty line and
returns (exit status 0). -/
theorem missing_member_is_accepted (w : World) (diff log branch : String)
    (choice : ChatCompletionChoice) (others : List ChatCompletionChoice)
    (hkey : w.getenv "OPENAI_API_KEY" ≠ "")
    (hd : w.output ["git", "diff", "HEAD"] = .ok diff)
    (hl : w.output ["git", "log", "--pretty=format:%s", "-n", "30"] = .ok log)
    (hb : w.output ["git", "branch", "--show-current"] = .ok branch)
    (hc : w.chatCompletionsNew (w.getenv "OPENAI_API_KEY") (completionParams w branch diff log) =
      .ok { Choices := choice :: others })
    (hobj : IsObjectWithoutCommitMessage choice.Content) :
    Unmarshal choice.Content { CommitMessage := "" } = .ok ({ CommitMessage := "" }, none) ∧
    Run w = (requestTrace w (w.getenv "OPENAI_API_KEY") diff log branch ++ [.stdout "\n"],
      .returned) ∧
    (Run w).2.exitCode = 0 ∧
    stderrWrites (Run w).1 = [] ∧
    stdoutWrites (Run w).1 = ["\n"] := by
  have hu := Unmarshal_without hobj { CommitMessage := "" }
  have hrun : Run w = (requestTrace w (w.getenv "OPENAI_API_KEY") diff log branch ++
      [.stdout "\n"], .returned) := by
    rw [Run_of_queries w diff log branch hkey hd hl hb, hc]
    simp [decodeAndPrint, hu, Fprintln_single]
  refine ⟨hu, hrun, ?_, ?_, ?_⟩ <;> rw [hrun] <;>
    simp [Outcome.exitCode, stdoutWrites, stderrWrites, requestTrace]

theorem missing_member_is_accepted_witness :
    Unmarshal " \x7b\x22type\x22: \x22fix\x22\x7d" { CommitMessage := "" } =
      .ok ({ CommitMessage := "" }, none) ∧
    stdoutWrites (Run (exampleWorld "sk-test" (.ok "D") (.ok "L") (.ok "B")
      (.ok { Choices := [{ Content := " \x7b\x22type\x22: \x22fix\x22\x7d" }] }))).1 = ["\n"] :=
  have h := missing_member_is_accepted (exampleWorld "sk-test" (.ok "D") (.ok "L") (.ok "B")
      (.ok { Choices := [{ Content := " \x7b\x22type\x22: \x22fix\x22\x7d" }] }))
    "D" "L" "B" _ [] (by decide) rfl rfl rfl rfl other_member_isObjectWithout
  ⟨h.1, h.2.2.2.2⟩

end Cmd
